import Mathlib

/-!
# Verification of the qinvgen SVTS core

Shallow embedding of the qinvgen repository (Super-operator-Valued Transition
Systems): complex scalars are modelled as pairs of rationals (every matrix
entry occurring in the verified scenarios is rational), dense operators as
dimension-tagged entry functions, the rustworkx `PyDiGraph` as an explicit
edge list, and the scoped ambient qubit count as explicit state passing.
Definitions mirror `lib/utils.py`, `superop.py`, `svts.py` and `parser.py`.
-/

/-! ## Scalars: complex numbers with rational parts -/

/-- A complex number with rational real and imaginary parts.  All matrix
entries manipulated by the verified code paths (projectors, identities,
basis outer products) are of this form. -/
structure CC where
  re : ℚ
  im : ℚ
deriving DecidableEq, Repr

namespace CC

def zero : CC := ⟨0, 0⟩

def one : CC := ⟨1, 0⟩

def add (x y : CC) : CC := ⟨x.re + y.re, x.im + y.im⟩

def mul (x y : CC) : CC := ⟨x.re * y.re - x.im * y.im, x.re * y.im + x.im * y.re⟩

/-- Complex conjugate. -/
def conj (x : CC) : CC := ⟨x.re, -x.im⟩

instance : Zero CC := ⟨zero⟩
instance : One CC := ⟨one⟩
instance : Add CC := ⟨add⟩
instance : Mul CC := ⟨mul⟩

theorem add_def (x y : CC) : x + y = ⟨x.re + y.re, x.im + y.im⟩ := rfl

theorem mul_def (x y : CC) :
    x * y = ⟨x.re * y.re - x.im * y.im, x.re * y.im + x.im * y.re⟩ := rfl

theorem zero_def : (0 : CC) = ⟨0, 0⟩ := rfl

theorem add_comm' (x y : CC) : x + y = y + x := by
  simp [add_def, add_comm]

theorem add_assoc' (x y z : CC) : x + y + z = x + (y + z) := by
  simp [add_def, add_assoc]

theorem add_zero' (x : CC) : x + 0 = x := by
  simp [add_def, zero_def]

theorem zero_add' (x : CC) : (0 : CC) + x = x := by
  simp [add_def, zero_def]

instance : AddCommMonoid CC where
  add_assoc := add_assoc'
  zero_add := zero_add'
  add_zero := add_zero'
  add_comm := add_comm'
  nsmul := nsmulRec

theorem mul_zero' (x : CC) : x * 0 = 0 := by
  simp [mul_def, zero_def]

theorem zero_mul' (x : CC) : (0 : CC) * x = 0 := by
  simp [mul_def, zero_def]

theorem one_def : (1 : CC) = ⟨1, 0⟩ := rfl

theorem mul_one' (x : CC) : x * 1 = x := by
  simp [mul_def, one_def]

theorem one_mul' (x : CC) : (1 : CC) * x = x := by
  simp [mul_def, one_def]

/-- Squared modulus, used for tolerance comparisons. -/
def normSq (x : CC) : ℚ := x.re * x.re + x.im * x.im

end CC

/-! ## `lib/utils.py`: `permute_bits` -/

/-- Embedding of `lib/utils.py::permute_bits`: the Python loop
`for i, fi in enumerate(perm): p_num += ((num & (1 << fi)) >> fi) << i`
as a left fold over the enumerated permutation list. -/
def permute_bits (num : Nat) (perm : List Nat) : Nat :=
  perm.enum.foldl (fun p_num x => p_num + ((num &&& (1 <<< x.2)) >>> x.2) <<< x.1) 0

/-- The bit extracted by one loop iteration is the tested bit of `num`. -/
theorem extract_bit_eq (num fi : Nat) :
    (num &&& (1 <<< fi)) >>> fi = (num.testBit fi).toNat := by
  rw [Nat.shiftLeft_eq, Nat.one_mul, Nat.and_two_pow, Nat.shiftRight_eq_div_pow,
      Nat.mul_div_cancel _ (Nat.pos_pow_of_pos fi (by norm_num))]

/-- Recursive reformulation of the `permute_bits` accumulator loop:
starting the enumeration at index `j` with accumulator `acc`. -/
theorem permute_bits_foldl_enumFrom (num : Nat) (perm : List Nat) (j acc : Nat) :
    (perm.enumFrom j).foldl
        (fun p_num x => p_num + ((num &&& (1 <<< x.2)) >>> x.2) <<< x.1) acc
      = acc + (List.range perm.length).foldr
          (fun i s => (num.testBit (perm.getD i 0)).toNat * 2 ^ (j + i) + s) 0 := by
  induction perm generalizing j acc with
  | nil => simp
  | cons fi rest ih =>
    simp only [List.enumFrom, List.foldl_cons, List.length_cons]
    rw [ih, extract_bit_eq]
    have hshift : (num.testBit fi).toNat <<< j = (num.testBit fi).toNat * 2 ^ j := by
      simp [Nat.shiftLeft_eq]
    rw [hshift]
    have := List.range_succ_eq_map rest.length
    rw [this]
    simp only [List.foldr_cons, List.foldr_map, List.getD_cons_zero, List.getD_cons_succ]
    have harith :
        (List.range rest.length).foldr
            (fun i s => (num.testBit (rest.getD i 0)).toNat * 2 ^ (j + 1 + i) + s) 0
          = (List.range rest.length).foldr
            (fun i s => (num.testBit (rest.getD i 0)).toNat * 2 ^ (j + (i + 1)) + s) 0 := by
      apply List.foldr_ext
      intro i _ s'
      ring_nf
    rw [harith]
    ring

/-- `permute_bits` as a plain sum of weighted bits. -/
theorem permute_bits_eq_sum (num : Nat) (perm : List Nat) :
    permute_bits num perm
      = (List.range perm.length).foldr
          (fun i s => (num.testBit (perm.getD i 0)).toNat * 2 ^ i + s) 0 := by
  unfold permute_bits
  rw [List.enum, permute_bits_foldl_enumFrom]
  simp

/-- A fold adding per-element contributions to an initial value splits off
the initial value. -/
theorem foldr_addf_init (g : Nat → Nat) (l : List Nat) (c : Nat) :
    l.foldr (fun i s => g i + s) c = l.foldr (fun i s => g i + s) 0 + c := by
  induction l with
  | nil => simp
  | cons a t ih => simp only [List.foldr_cons, ih]; omega

/-- The weighted-bit sum over indices `[0, n)` is below `2 ^ n`. -/
theorem bitSum_lt (f : Nat → Bool) (n : Nat) :
    (List.range n).foldr (fun i s => (f i).toNat * 2 ^ i + s) 0 < 2 ^ n := by
  induction n with
  | zero => simp
  | succ m ih =>
    rw [List.range_succ]
    simp only [List.foldr_append, List.foldr_cons, List.foldr_nil, Nat.add_zero]
    rw [foldr_addf_init]
    have h1 : (f m).toNat * 2 ^ m ≤ 2 ^ m := by
      calc (f m).toNat * 2 ^ m ≤ 1 * 2 ^ m := Nat.mul_le_mul_right _ (Bool.toNat_le _)
        _ = 2 ^ m := Nat.one_mul _
    have h2 : 2 ^ (m + 1) = 2 ^ m + 2 ^ m := by ring
    omega

/-- The weighted-bit sum over indices `[0, n)` has `testBit i = f i` for
`i < n` and `false` above, provided each summand is a bit.  -/
theorem testBit_bitSum (f : Nat → Bool) (n : Nat) (i : Nat) :
    ((List.range n).foldr (fun i s => (f i).toNat * 2 ^ i + s) 0).testBit i
      = (decide (i < n) && f i) := by
  induction n generalizing i with
  | zero => simp
  | succ m ih =>
    rw [List.range_succ]
    simp only [List.foldr_append, List.foldr_cons, List.foldr_nil, Nat.add_zero]
    rw [foldr_addf_init]
    set s := (List.range m).foldr (fun i s => (f i).toNat * 2 ^ i + s) 0 with hs
    have hslt : s < 2 ^ m := bitSum_lt f m
    rcases Nat.lt_trichotomy i m with hlt | rfl | hgt
    · have h1 : (s + (f m).toNat * 2 ^ m).testBit i = s.testBit i := by
        rcases h : f m with _ | _
        · simp
        · simp only [h, Bool.toNat_true, Nat.one_mul]
          rw [Nat.add_comm, Nat.testBit_two_pow_add_gt hlt]
      rw [h1, ih]
      have : i < m + 1 := Nat.lt_succ_of_lt hlt
      simp [hlt, this]
    · have h1 : (s + (f i).toNat * 2 ^ i).testBit i = f i := by
        rcases h : f i with _ | _
        · simp only [h, Bool.toNat_false, Nat.zero_mul, Nat.add_zero]
          have := Nat.testBit_lt_two_pow hslt
          exact this
        · simp only [h, Bool.toNat_true, Nat.one_mul]
          rw [Nat.add_comm, Nat.testBit_two_pow_add_eq]
          · simp [Nat.testBit_lt_two_pow hslt]
      rw [h1]
      simp
    · have htot : s + (f m).toNat * 2 ^ m < 2 ^ i := by
        have h1 : (f m).toNat * 2 ^ m ≤ 2 ^ m := by
          calc (f m).toNat * 2 ^ m ≤ 1 * 2 ^ m := Nat.mul_le_mul_right _ (Bool.toNat_le _)
            _ = 2 ^ m := Nat.one_mul _
        have h2 : 2 ^ (m + 1) ≤ 2 ^ i := Nat.pow_le_pow_right (by norm_num) hgt
        have : s + (f m).toNat * 2 ^ m < 2 ^ m + 2 ^ m := by omega
        have h3 : 2 ^ m + 2 ^ m = 2 ^ (m + 1) := by ring
        omega
      rw [Nat.testBit_lt_two_pow htot]
      have : ¬ i < m + 1 := by omega
      simp [this]

/-- Bit-level characterisation of `permute_bits`: bit `i` of the result (in
standard little-endian indexing, bit `0` least significant) is bit `perm[i]`
of the input for `i < |perm|`, and `false` above. -/
theorem permute_bits_testBit (num : Nat) (perm : List Nat) (i : Nat) :
    (permute_bits num perm).testBit i
      = (decide (i < perm.length) && num.testBit (perm.getD i 0)) := by
  rw [permute_bits_eq_sum, testBit_bitSum]

/-- High bits of a `permute_bits` result vanish. -/
theorem permute_bits_testBit_high (num : Nat) (perm : List Nat) (i : Nat)
    (h : perm.length ≤ i) : (permute_bits num perm).testBit i = false := by
  rw [permute_bits_testBit]
  simp [Nat.not_lt_of_le h]

/-- Big-endian reading of the spec sentence for claim C8, for comparison with
the source's `permute_bits`: the result is the number whose big-endian bit `i`
(bit `0` most significant, over `k = |perm|` bits) equals `num`'s big-endian
bit `perm[i]`. -/
def bigEndianPermute (num : Nat) (perm : List Nat) : Nat :=
  (List.range perm.length).foldr
    (fun i s =>
      (num.testBit (perm.length - 1 - perm.getD i 0)).toNat
        * 2 ^ (perm.length - 1 - i) + s) 0

/-- C8: the claim reads `permute_bits` big-endian; on `num = 1`,
`perm = [1, 0, 2]` the source returns `2` while the big-endian semantics
demanded by the claim returns `1`, so the claim as stated is false. -/
theorem c8_counterexample :
    permute_bits 1 [1, 0, 2] = 2 ∧ bigEndianPermute 1 [1, 0, 2] = 1 ∧
      permute_bits 1 [1, 0, 2] ≠ bigEndianPermute 1 [1, 0, 2] := by
  decide

/-- C8 (amended): `permute_bits(num, perm)` is the number whose bit `i` in
standard little-endian indexing (bit `0` least significant) equals `num`'s
bit `perm[i]` for every `i < |perm|`, with every higher bit clear. -/
theorem c8_permute_bits_little_endian (num : Nat) (perm : List Nat) (i : Nat) :
    (i < perm.length →
      (permute_bits num perm).testBit i = num.testBit (perm.getD i 0)) ∧
    (perm.length ≤ i → (permute_bits num perm).testBit i = false) := by
  constructor
  · intro h
    rw [permute_bits_testBit]
    simp [h]
  · exact permute_bits_testBit_high num perm i

/-- Witness for C8's amended theorem at `num = 5`, `perm = [1, 0, 2]`, bit 0. -/
theorem c8_permute_bits_little_endian_witness :
    (0 < ([1, 0, 2] : List Nat).length) ∧
      (permute_bits 5 [1, 0, 2]).testBit 0
        = (5 : Nat).testBit (([1, 0, 2] : List Nat).getD 0 0) :=
  ⟨by decide, (c8_permute_bits_little_endian 5 [1, 0, 2] 0).1 (by decide)⟩

/-- C9: permuting the bits of `num < 2 ^ k` by a permutation of `[0, k)` and
then by its inverse returns `num`. -/
theorem c9_permute_bits_roundtrip (k num : Nat) (p pinv : List Nat)
    (hnum : num < 2 ^ k) (hp : p.length = k) (hpinv : pinv.length = k)
    (hbound : ∀ i, i < k → pinv.getD i 0 < k)
    (hcomp : ∀ i, i < k → p.getD (pinv.getD i 0) 0 = i) :
    permute_bits (permute_bits num p) pinv = num := by
  apply Nat.eq_of_testBit_eq
  intro j
  rw [permute_bits_testBit]
  rcases Nat.lt_or_ge j k with hj | hj
  · have h1 : j < pinv.length := by omega
    have h2 : pinv.getD j 0 < p.length := by
      rw [hp]; exact hbound j hj
    rw [permute_bits_testBit, hcomp j hj, decide_eq_true h1, decide_eq_true h2]
    simp
  · have h1 : ¬ j < pinv.length := by omega
    have h2 : num < 2 ^ j :=
      Nat.lt_of_lt_of_le hnum (Nat.pow_le_pow_right (by norm_num) hj)
    simp [h1, Nat.testBit_lt_two_pow h2]

/-- Witness for C9 at `k = 2`, the swap permutation, `num = 1`. -/
theorem c9_permute_bits_roundtrip_witness :
    (1 < 2 ^ 2) ∧ permute_bits (permute_bits 1 [1, 0]) [1, 0] = 1 :=
  ⟨by decide,
    c9_permute_bits_roundtrip 2 1 [1, 0] [1, 0] (by decide) (by decide) (by decide)
      (by decide) (by decide)⟩

/-! ## Dense operators

`qiskit.quantum_info.Operator` values are dense square complex matrices.  They
are modelled as a dimension tag together with a total entry function; entries
outside `[0, dim)` are irrelevant and never compared. -/

structure Op where
  dim : Nat
  entry : Nat → Nat → CC

namespace Op

/-- Matrix product (`numpy.dot` / the `@` of two same-dimension operators). -/
def mul (a b : Op) : Op :=
  ⟨a.dim, fun i j => ∑ k ∈ Finset.range a.dim, a.entry i k * b.entry k j⟩

/-- Entrywise sum (`numpy` `+` on same-shaped arrays). -/
def add (a b : Op) : Op :=
  ⟨a.dim, fun i j => a.entry i j + b.entry i j⟩

/-- Conjugate transpose (`Operator.adjoint`). -/
def adjoint (a : Op) : Op :=
  ⟨a.dim, fun i j => (a.entry j i).conj⟩

/-- Kronecker product (`numpy.kron`); the left factor occupies the
high-order (lower-indexed, big-endian) qubits. -/
def kron (a b : Op) : Op :=
  ⟨a.dim * b.dim, fun i j =>
    a.entry (i / b.dim) (j / b.dim) * b.entry (i % b.dim) (j % b.dim)⟩

/-- Equality of the meaningful entries (the dimensions and all entries
inside them). -/
def eqUpTo (a b : Op) : Prop :=
  a.dim = b.dim ∧ ∀ i < a.dim, ∀ j < a.dim, a.entry i j = b.entry i j

instance (a b : Op) : Decidable (eqUpTo a b) := by
  unfold eqUpTo
  infer_instance

end Op

/-- Identity matrix on dimension `n` (`np.identity(n)`, `GATE["I"]` at
`n = 2`). -/
def idOp (n : Nat) : Op := ⟨n, fun i j => if i = j then 1 else 0⟩

/-! ### Numerical tolerance

`qiskit.quantum_info.operators.predicates.is_identity_matrix(mat)` runs
`np.allclose(mat, np.eye(n))`, i.e. `|mat[i,j] - eye[i,j]| <= atol +
rtol * |eye[i,j]|` entrywise with `atol = 1e-8`, `rtol = 1e-5`.  The moduli
are compared squared so everything stays rational. -/

def ATOL : ℚ := 1 / 100000000

def RTOL : ℚ := 1 / 100000

/-- `|x - y|² ≤ bound²` for a rational bound. -/
def withinTol (x y : CC) (bound : ℚ) : Prop :=
  CC.normSq ⟨x.re - y.re, x.im - y.im⟩ ≤ bound * bound

instance (x y : CC) (bound : ℚ) : Decidable (withinTol x y bound) := by
  unfold withinTol
  infer_instance

/-- Embedding of `is_identity_matrix` (tolerance form). -/
def is_identity_matrix (a : Op) : Prop :=
  ∀ i < a.dim, ∀ j < a.dim,
    withinTol (a.entry i j) ((idOp a.dim).entry i j)
      (if i = j then ATOL + RTOL else ATOL)

instance (a : Op) : Decidable (is_identity_matrix a) := by
  unfold is_identity_matrix
  infer_instance

/-- `Operator.is_unitary`: `U · U†` is the identity within tolerance. -/
def is_unitary (a : Op) : Prop := is_identity_matrix (a.mul a.adjoint)

instance (a : Op) : Decidable (is_unitary a) := by
  unfold is_unitary
  infer_instance

/-! ## Python-level values and errors -/

/-- The exceptions raised by the verified code paths. `attributeError`
models attribute access on a non-operator value (Python `int`), which is
what happens when `sum([])` — the integer `0` — reaches operator code. -/
inductive PyErr where
  | runtimeError
  | valueError (msg : String)
  | attributeError
deriving DecidableEq, Repr

/-- Python's built-in `sum` over a list of operators: the empty sum is the
*integer* `0` (`none` here), otherwise the operator fold of `+` (the start
value `0` is absorbed by the first operand). -/
def pyOpSum (l : List Op) : Option Op :=
  match l with
  | [] => none
  | h :: t => some (t.foldl Op.add h)

/-! ## `rustworkx.PyDiGraph` (multigraph=False)

Modelled as an explicit arena: a fresh-id counter, the list of live node
ids, and an edge list without parallel edges.  Edge payloads are
`(Kraus list, qargs)` pairs as stored by `svts.py`. -/

abbrev Payload := List Op × List Nat

abbrev Edge := Nat × Nat × Payload

structure CFG where
  nextId : Nat
  nodes : List Nat
  edges : List Edge

namespace CFG

def addNode (g : CFG) : Nat × CFG :=
  (g.nextId, { g with nextId := g.nextId + 1, nodes := g.nodes ++ [g.nextId] })

def hasEdge (g : CFG) (u v : Nat) : Bool :=
  g.edges.any fun e => e.1 == u && e.2.1 == v

/-- `add_edge` on a non-multigraph updates the payload of an existing
`(u, v)` edge and otherwise appends a new edge. -/
def addEdge (g : CFG) (u v : Nat) (p : Payload) : CFG :=
  if g.hasEdge u v then
    { g with edges := g.edges.map fun e =>
        if e.1 == u && e.2.1 == v then (u, v, p) else e }
  else { g with edges := g.edges ++ [(u, v, p)] }

/-- `compose(other, node_map)`: add `other`'s nodes (with fresh ids given by
the translation `fun i => g.nextId + i`) and edges, plus one boundary edge
per `node_map` entry `(host, otherNode, payload)`.  Returns the graph and
the id translation. -/
def compose (g other : CFG) (nodeMap : List (Nat × Nat × Payload)) :
    CFG × (Nat → Nat) :=
  let t : Nat → Nat := fun i => g.nextId + i
  ({ nextId := g.nextId + other.nextId,
     nodes := g.nodes ++ other.nodes.map t,
     edges := g.edges ++ other.edges.map (fun e => (t e.1, t e.2.1, e.2.2))
        ++ nodeMap.map (fun m => (m.1, t m.2.1, m.2.2)) }, t)

/-- Drop all but the first edge for each ordered node pair. -/
def dedupeEdges : List Edge → List (Nat × Nat) → List Edge
  | [], _ => []
  | e :: rest, seen =>
    if (e.1, e.2.1) ∈ seen then dedupeEdges rest seen
    else e :: dedupeEdges rest ((e.1, e.2.1) :: seen)

/-- `contract_nodes(nodes, None)`: replace the set by one fresh node;
edges internal to the set are dropped, incident edges are rewired, and
parallel edges arising from the rewiring are condensed.  Returns the new
node id and the graph. -/
def contractNodes (g : CFG) (s : List Nat) : Nat × CFG :=
  let w := g.nextId
  let f : Nat → Nat := fun x => if x ∈ s then w else x
  let mapped := g.edges.filterMap fun e =>
    if e.1 ∈ s ∧ e.2.1 ∈ s then none else some (f e.1, f e.2.1, e.2.2)
  (w, { nextId := g.nextId + 1,
        nodes := g.nodes.filter (fun x => decide (x ∉ s)) ++ [w],
        edges := dedupeEdges mapped [] })

/-- `substitute_node_with_subgraph(target, sub, fn)` where the edge map
constantly returns the sub-node `r` (as `SVTS.comp` does): remove `target`,
splice in `sub` with fresh ids, rewire all edges incident to `target` to the
image of `r`. -/
def substituteNode (g : CFG) (target : Nat) (sub : CFG) (r : Nat) :
    CFG × (Nat → Nat) :=
  let t : Nat → Nat := fun i => g.nextId + i
  let rewire : Nat → Nat := fun x => if x = target then t r else x
  ({ nextId := g.nextId + sub.nextId,
     nodes := g.nodes.filter (fun x => decide (x ≠ target)) ++ sub.nodes.map t,
     edges := g.edges.map (fun e => (rewire e.1, rewire e.2.1, e.2.2))
        ++ sub.edges.map (fun e => (t e.1, t e.2.1, e.2.2)) }, t)

def outEdges (g : CFG) (u : Nat) : List Edge :=
  g.edges.filter fun e => e.1 == u

def inDegree (g : CFG) (u : Nat) : Nat :=
  (g.edges.filter fun e => e.2.1 == u).length

def outDegree (g : CFG) (u : Nat) : Nat := (g.outEdges u).length

def successors (g : CFG) (u : Nat) : List Nat :=
  (g.outEdges u).map fun e => e.2.1

/-- `update_edge(u, v, p)`: replace the payload of the `(u, v)` edge. -/
def updateEdge (g : CFG) (u v : Nat) (p : Payload) : CFG :=
  { g with edges := g.edges.map fun e =>
      if e.1 == u && e.2.1 == v then (u, v, p) else e }

end CFG

/-! ## `svts.py`: the SVTS and its constructors

The metaclass state `SVTSMeta._qsize` is passed explicitly: every
constructor takes the current ambient qubit count as its first argument
(`0` means "no `meta_init` scope active", exactly the guard
`if not SVTS.qsize` of `SVTS.__init__`). -/

structure SVTS where
  qsize : Nat
  cfg : CFG
  lin : Nat
  lout : Nat

/-- `SVTS.__init__`: requires an active ambient qubit count, then creates a
fresh two-node graph. -/
def svtsNew (ambient : Nat) : Except PyErr SVTS :=
  if ambient = 0 then .error .runtimeError
  else
    let g0 : CFG := ⟨0, [], []⟩
    let (lin, g1) := g0.addNode
    let (lout, g2) := g1.addNode
    .ok ⟨ambient, g2, lin, lout⟩

/-- `SVTSMeta.meta_init` as a state transformer: set `_qsize` to `qsize`,
run the body, and reset `_qsize` to `0` in the `finally` block — on the
normal exit and on the exception exit alike.  The first component is the
body's outcome, the second the ambient count after the scope closed.
`s0` is the ambient value before the scope opened (it is overwritten, not
saved). -/
def metaInitFrom (s0 : Nat) (qsize : Nat) (body : Nat → Except PyErr α) :
    Except PyErr α × Nat :=
  let _ := s0
  match body qsize with
  | .ok a => (.ok a, 0)
  | .error e => (.error e, 0)

/-- `SVTS.skip`: one edge `lin → lout` carrying `(Kraus(FIXEDGATE["I"]), [0])`. -/
def svtsSkip (ambient : Nat) : Except PyErr SVTS := do
  let main ← svtsNew ambient
  .ok { main with cfg := main.cfg.addEdge main.lin main.lout ([idOp 2], [0]) }

/-- `Statevector.from_int(v, (2,)*k)`: the standard basis column `e_v`. -/
def stateFromInt (v : Nat) : Nat → CC :=
  fun x => if x = v then 1 else 0

/-- `lib/utils.py::outer(l_sv, r_sv) = Operator(np.outer(l_sv, r_sv))`:
no complex conjugation is applied by `np.outer`. -/
def outer (d : Nat) (l r : Nat → CC) : Op :=
  ⟨d, fun i j => l i * r j⟩

/-- The Kraus list built by `SVTS.init` for `k = len(qargs)`:
`[outer(Statevector.from_int(i, dims), zero) for i in range(2 ** k)]`. -/
def initKraus (k : Nat) : List Op :=
  (List.range (2 ^ k)).map fun i =>
    outer (2 ^ k) (stateFromInt i) (stateFromInt 0)

/-- `SVTS.init(qargs)` (with an explicit `qargs`; the `None` default is
resolved by callers to `cls.qvars`). -/
def svtsInit (ambient : Nat) (qargs : List Nat) : Except PyErr SVTS :=
  if ¬ qargs.Nodup then .error (.valueError "qargs contain duplicate qubits")
  else if ¬ ∀ q ∈ qargs, q < ambient then
    .error (.valueError "qargs is not a subset of qvars")
  else do
    let main ← svtsNew ambient
    .ok { main with cfg :=
      main.cfg.addEdge main.lin main.lout (initKraus qargs.length, qargs) }

/-- `SVTS.unit(op, qargs)`. -/
def svtsUnit (ambient : Nat) (op : Op) (qargs : List Nat) : Except PyErr SVTS :=
  if ¬ qargs.Nodup then .error (.valueError "qargs contain duplicate qubits")
  else if ¬ ∀ q ∈ qargs, q < ambient then
    .error (.valueError "qargs is not a subset of qvars")
  else if ¬ is_unitary op then .error (.valueError "op is not unitary")
  else do
    let main ← svtsNew ambient
    .ok { main with cfg := main.cfg.addEdge main.lin main.lout ([op], qargs) }

/-- `SVTS.comp(left, right)`: substitute `left.lout` by `right`'s graph,
rewiring every boundary edge to `right.lin`. -/
def svtsComp (ambient : Nat) (left right : SVTS) : Except PyErr SVTS := do
  let main ← svtsNew ambient
  let (g, t) := left.cfg.substituteNode left.lout right.cfg right.lin
  .ok { main with cfg := g, lin := left.lin, lout := t right.lout }

/-- `is_identity_matrix` applied to a Python `sum` result: the integer `0`
(empty sum, `none`) is not a 2-d array and is never identity. -/
def pyIsIdentity (s : Option Op) : Prop :=
  match s with
  | none => False
  | some m => is_identity_matrix m

instance (s : Option Op) : Decidable (pyIsIdentity s) :=
  match s with
  | none => isFalse fun h => h
  | some m => (inferInstance : Decidable (is_identity_matrix m))

/-- `SVTS.case(*cases, qargs)`. The completeness test applies
`is_identity_matrix` to the Python `sum` of the adjoint products, which for
an empty case list is the integer `0` (not a matrix, hence never close to
identity). -/
def svtsCase (ambient : Nat) (cases : List (Op × SVTS)) (qargs : List Nat) :
    Except PyErr SVTS :=
  if ¬ qargs.Nodup then .error (.valueError "qargs contain duplicate qubits")
  else if ¬ ∀ q ∈ qargs, q < ambient then
    .error (.valueError "qargs is not a subset of qvars")
  else if (cases.map fun c => c.1.dim).dedup.length > 1 then
    .error (.valueError "measurement operators have different dimensions")
  else if ¬ pyIsIdentity (pyOpSum (cases.map fun c => (c.1.adjoint).mul c.1)) then
    .error (.valueError "completeness condition is not satisfied")
  else do
    let main ← svtsNew ambient
    let step := fun (acc : CFG × List Nat) (c : Op × SVTS) =>
      let (g', t) := acc.1.compose c.2.cfg [(main.lin, c.2.lin, ([c.1], qargs))]
      (g', acc.2 ++ [t c.2.lout])
    let (g, subExits) := cases.foldl step (main.cfg, [])
    let (w, g2) := g.contractNodes (subExits ++ [main.lout])
    .ok { main with cfg := g2, lout := w }

/-- `SVTS.loop(true, false, body, qargs)`. -/
def svtsLoop (ambient : Nat) (t f : Op) (body : SVTS) (qargs : List Nat) :
    Except PyErr SVTS :=
  if ¬ qargs.Nodup then .error (.valueError "qargs contain duplicate qubits")
  else if ¬ ∀ q ∈ qargs, q < ambient then
    .error (.valueError "qargs is not a subset of qvars")
  else if t.dim ≠ f.dim then
    .error (.valueError "measurement operators have different dimensions")
  else if ¬ is_identity_matrix (t.add f) then
    .error (.valueError "completeness condition is not satisfied")
  else do
    let ts ← svtsNew ambient
    let g1 := ts.cfg.addEdge ts.lin ts.lout ([f], qargs)
    let (g2, tr) := g1.compose body.cfg [(ts.lin, body.lin, ([t], qargs))]
    let (w, g3) := g2.contractNodes [tr body.lout, ts.lin]
    .ok { ts with cfg := g3, lin := w }

/-! ## `superop.py`: SuperOperator -/

/-- A Kraus list together with the ordered qubit indices it acts on. -/
structure SuperOperator where
  kraus : List Op
  qargs : List Nat

/-- `SuperOperator.__matmul__` (also exposed as `dot`): rebuild both Kraus
lists and take the qiskit `Kraus @ Kraus` (front composition), whose Kraus
list is `[np.dot(a, b) for a in A for b in B]`; the result keeps `self`'s
`qargs`. -/
def superMatmul (a b : SuperOperator) : SuperOperator :=
  { kraus := a.kraus.flatMap fun x => b.kraus.map fun y => x.mul y,
    qargs := a.qargs }

/-- qiskit `Kraus.__and__` (`compose`, `front=False`) on bare Kraus lists:
`[np.dot(a, b) for a in other for b in self]` — the accumulated channel
`self` is applied first.  This is the `ss_op &= s_op` of `SVTS.minimise`. -/
def krausAnd (self other : List Op) : List Op :=
  other.flatMap fun a => self.map fun b => a.mul b

/-! ## `lib/utils.py`: `expand` -/

/-- `op.dim[0]` of a Kraus: the row dimension of its matrices. -/
def krausDim (l : List Op) : Nat := (l.headD (idOp 1)).dim

/-- `list(range(min(qargs), max(qargs) + 1))`. -/
def contiguousRange (qargs : List Nat) : List Nat :=
  List.range' (qargs.foldl Nat.min (qargs.headD 0))
    (qargs.foldl Nat.max (qargs.headD 0) + 1 - qargs.foldl Nat.min (qargs.headD 0))

/-- `_expand_no_perm`: pad with the one-qubit identity `qargs[0]` times on
the high-order side (`op.expand(I)`, i.e. `kron(I, op)`) and
`qsize - qargs[-1] - 1` times on the low-order side (`op.tensor(I)`, i.e.
`kron(op, I)`), applied to every Kraus matrix. -/
def expandNoPerm (l : List Op) (qsize : Nat) (qargs : List Nat) : List Op :=
  let l1 := (fun acc : List Op => acc.map fun m => Op.kron (idOp 2) m)^[qargs.headD 0] l
  (fun acc : List Op => acc.map fun m => Op.kron m (idOp 2))^[qsize - (qargs.getLast?.getD 0) - 1] l1

/-- `lib/utils.py::expand` on a Kraus list: validation, the contiguous
fast path, and otherwise expansion in the `(free ‖ qargs)` ordering
followed by the `permute_bits`-derived basis permutation of rows and
columns. -/
def expandKraus (l : List Op) (qsize : Nat) (qargs0 : List Nat) :
    Except PyErr (List Op) :=
  let qargs := if qargs0.isEmpty then List.range (Nat.log2 (krausDim l)) else qargs0
  if ¬ qargs.Nodup then .error (.valueError "qargs contain duplicate qubits")
  else if ¬ ∀ q ∈ qargs, q < qsize then
    .error (.valueError "qargs must be a subset of the system")
  else if krausDim l ≠ 2 ^ qargs.length then
    .error (.valueError "mismatch between dimension of op and qargs")
  else if qargs = contiguousRange qargs then
    .ok (expandNoPerm l qsize qargs)
  else
    let free := (List.range qsize).filter fun q => q ∉ qargs
    let expanded := free.foldl (fun acc _ => acc.map fun m => Op.kron (idOp 2) m) l
    let basis := (List.range (2 ^ qsize)).map fun q => permute_bits q (free ++ qargs)
    let perm := (List.range (2 ^ qsize)).map fun q => basis.indexOf q
    .ok (expanded.map fun m =>
      ⟨m.dim, fun i j => m.entry (perm.getD i 0) (perm.getD j 0)⟩)

/-! ## `SVTS.minimise` -/

/-- The identity test `is_identity_matrix(s_op)` applied to an edge's Kraus
value: taken to hold for a single-Kraus numerical identity (§4.6 of the
design: "if `op` is not numerically identity, expand and compose"). -/
def isIdentityKraus (l : List Op) : Prop :=
  match l with
  | [m] => is_identity_matrix m
  | _ => False

instance (l : List Op) : Decidable (isIdentityKraus l) :=
  match l with
  | [] => isFalse fun h => h
  | [m] => (inferInstance : Decidable (is_identity_matrix m))
  | _ :: _ :: _ => isFalse fun h => h

/-- The `while in_degree(loc) <= out_degree(loc) == 1` chase of
`SVTS.minimise`, with explicit fuel (the Python loop terminates on every
graph the combinators build; the fuel is chosen large enough).  Collects
the compound super-operator and the traversed locations.  The `expand`
error path is never taken on combinator-built graphs; it falls back to the
unexpanded operator. -/
def minimiseChase (g : CFG) (qsize : Nat) :
    Nat → List Op → List Nat → Nat → List Op × List Nat
  | _, ssop, locs, 0 => (ssop, locs)
  | loc, ssop, locs, fuel + 1 =>
    if g.inDegree loc ≤ g.outDegree loc ∧ g.outDegree loc = 1 then
      match g.outEdges loc with
      | [] => (ssop, locs)
      | e :: _ =>
        let v := e.2.1
        let sop := e.2.2.1
        let qargs := e.2.2.2
        let ssop' :=
          if isIdentityKraus sop then ssop
          else krausAnd ssop ((expandKraus sop qsize qargs).toOption.getD sop)
        minimiseChase g qsize v ssop' (locs ++ [v]) fuel
    else (ssop, locs)

/-- Depth-first worklist form of the recursive `SVTS.minimise`: process the
head location, contract its cutpoint-free chain if it has more than one
node, then continue with the successors of the contracted tail. -/
def minimiseRec : Nat → SVTS → List Nat → SVTS
  | 0, s, _ => s
  | _ + 1, s, [] => s
  | fuel + 1, s, head :: rest =>
    let r := minimiseChase s.cfg s.qsize head [idOp (2 ^ s.qsize)] []
      (s.cfg.edges.length + 1)
    if r.2.length ≤ 1 then minimiseRec fuel s rest
    else
      let (tail, g2) := s.cfg.contractNodes r.2
      let g3 := g2.updateEdge head tail (r.1, List.range s.qsize)
      let newLout := if r.2.getLast? = some s.lout then tail else s.lout
      let s' := { s with cfg := g3, lout := newLout }
      minimiseRec fuel s' (g3.successors tail ++ rest)

/-- `ts.minimise()` (default head `lin`). -/
def minimiseRun (s : SVTS) : SVTS :=
  minimiseRec (s.cfg.nextId + s.cfg.edges.length + 1) s [s.lin]

/-! ## Concrete operators and programs used by the scenarios -/

/-- `FIXEDGATE["M0"]`: the projector `|0⟩⟨0|`. -/
def M0 : Op := ⟨2, fun i j => if i = 0 ∧ j = 0 then 1 else 0⟩

/-- `FIXEDGATE["M1"]`: the projector `|1⟩⟨1|`. -/
def M1 : Op := ⟨2, fun i j => if i = 1 ∧ j = 1 then 1 else 0⟩

/-- The SVTS value produced by `SVTS.skip` under ambient count `n`. -/
def skipSVTS (n : Nat) : SVTS :=
  ⟨n, ⟨2, [0, 1], [(0, 1, ([idOp 2], [0]))]⟩, 0, 1⟩

theorem svtsSkip_ok (n : Nat) (h : n ≠ 0) : svtsSkip n = Except.ok (skipSVTS n) := by
  unfold svtsSkip svtsNew
  rw [if_neg h]
  rfl

/-- C7: every SVTS constructor invoked while the ambient qubit count is `0`
(no `meta_init` scope active) raises, and `meta_init` resets the ambient
count to `0` on both the normal and the exceptional exit path, so any
construction attempted after a scope has closed raises again. -/
theorem c7_ambient_scope_guard
    (qargs : List Nat) (op t f : Op) (l r body : SVTS)
    (cases : List (Op × SVTS)) (q0 q : Nat)
    (scopeBody : Nat → Except PyErr SVTS) :
    (∃ e, svtsNew 0 = Except.error e) ∧
    (∃ e, svtsSkip 0 = Except.error e) ∧
    (∃ e, svtsInit 0 qargs = Except.error e) ∧
    (∃ e, svtsUnit 0 op qargs = Except.error e) ∧
    (∃ e, svtsComp 0 l r = Except.error e) ∧
    (∃ e, svtsCase 0 cases qargs = Except.error e) ∧
    (∃ e, svtsLoop 0 t f body qargs = Except.error e) ∧
    (metaInitFrom q0 q scopeBody).2 = 0 ∧
    (∃ e, svtsNew (metaInitFrom q0 q scopeBody).2 = Except.error e) := by
  have hscope : (metaInitFrom q0 q scopeBody).2 = 0 := by
    unfold metaInitFrom
    rcases scopeBody q with a | a <;> rfl
  refine ⟨⟨.runtimeError, rfl⟩, ⟨.runtimeError, rfl⟩, ?_, ?_, ⟨.runtimeError, rfl⟩,
    ?_, ?_, hscope, ?_⟩
  · unfold svtsInit
    split
    · exact ⟨_, rfl⟩
    · split
      · exact ⟨_, rfl⟩
      · exact ⟨.runtimeError, rfl⟩
  · unfold svtsUnit
    split
    · exact ⟨_, rfl⟩
    · split
      · exact ⟨_, rfl⟩
      · split
        · exact ⟨_, rfl⟩
        · exact ⟨.runtimeError, rfl⟩
  · unfold svtsCase
    split
    · exact ⟨_, rfl⟩
    · split
      · exact ⟨_, rfl⟩
      · split
        · exact ⟨_, rfl⟩
        · split
          · exact ⟨_, rfl⟩
          · exact ⟨.runtimeError, rfl⟩
  · unfold svtsLoop
    split
    · exact ⟨_, rfl⟩
    · split
      · exact ⟨_, rfl⟩
      · split
        · exact ⟨_, rfl⟩
        · split
          · exact ⟨_, rfl⟩
          · exact ⟨.runtimeError, rfl⟩
  · rw [hscope]
    exact ⟨.runtimeError, rfl⟩

/-- C10: the `finally` of `meta_init` writes `0`, not the enclosing scope's
count, so after an inner scope exits inside a still-active outer scope of
size `q1 ≠ 0`, the ambient count is `0` (not `q1`) and every subsequent
construction raises. -/
theorem c10_nested_scope_resets_ambient (q1 q2 : Nat)
    (innerBody : Nat → Except PyErr SVTS) :
    (metaInitFrom q1 q2 innerBody).2 = 0 ∧
    (q1 ≠ 0 → (metaInitFrom q1 q2 innerBody).2 ≠ q1) ∧
    (∃ e, svtsNew (metaInitFrom q1 q2 innerBody).2 = Except.error e) ∧
    (∃ e, svtsSkip (metaInitFrom q1 q2 innerBody).2 = Except.error e) := by
  have hscope : (metaInitFrom q1 q2 innerBody).2 = 0 := by
    unfold metaInitFrom
    rcases innerBody q2 with a | a <;> rfl
  refine ⟨hscope, ?_, ?_, ?_⟩
  · intro hq1
    rw [hscope]
    omega
  · rw [hscope]
    exact ⟨.runtimeError, rfl⟩
  · rw [hscope]
    exact ⟨.runtimeError, rfl⟩

/-- The Kraus list demanded by the spec for `init` on `k` qubits:
`{ |0⟩⟨i| : i ∈ [0, 2^k) }` (reset to `|0⟩`); for comparison with the
source's `initKraus`. -/
def specResetKraus (k : Nat) : List Op :=
  (List.range (2 ^ k)).map fun i =>
    ⟨2 ^ k, fun a b => if a = 0 ∧ b = i then 1 else 0⟩

/-- C1: `SVTS.init` does build two locations and one `lin → lout` edge on
`qargs`, but its Kraus matrices are `outer(Statevector.from_int(i, dims),
zero) = |i⟩⟨0|` — the `outer` arguments are swapped relative to the reset
semantics `|0⟩⟨i|` stated by the spec.  For scenario S2 (`reset q[1]` under
`N = 2`) the second Kraus matrix has entry `(1,0) = 1` where the specified
`|0⟩⟨1|` has entry `(1,0) = 0` and `(0,1) = 1`. -/
theorem c1_init_kraus_transposed :
    svtsInit 2 [1] = Except.ok ⟨2, ⟨2, [0, 1], [(0, 1, (initKraus 1, [1]))]⟩, 0, 1⟩ ∧
    (initKraus 1).length = 2 ∧
    ((initKraus 1).getD 1 (idOp 1)).entry 1 0 = 1 ∧
    ((initKraus 1).getD 1 (idOp 1)).entry 0 1 = 0 ∧
    ((specResetKraus 1).getD 1 (idOp 1)).entry 1 0 = 0 ∧
    ((specResetKraus 1).getD 1 (idOp 1)).entry 0 1 = 1 := by
  have e1 : ((initKraus 1).getD 1 (idOp 1)).entry 1 0
      = stateFromInt 1 1 * stateFromInt 0 0 := rfl
  have e2 : ((initKraus 1).getD 1 (idOp 1)).entry 0 1
      = stateFromInt 1 0 * stateFromInt 0 1 := rfl
  refine ⟨rfl, rfl, ?_, ?_, rfl, rfl⟩
  · rw [e1]
    simp [stateFromInt, CC.mul_one']
  · rw [e2]
    simp [stateFromInt, CC.zero_mul']

/-- `minimise` on a pure-skip graph: the cutpoint-free chase collects only
`[lout]`, so `len(locs) <= 1` returns before any contraction. -/
theorem minimiseRun_skip (n : Nat) : minimiseRun (skipSVTS n) = skipSVTS n := rfl

/-- C3 (amended): a pure `skip` SVTS is returned *unchanged* by
`minimise`: its single edge `lin → lout` still carries the one-qubit
identity Kraus with `qargs = [0]`.  The claim's conclusion (identity on all
`N` qubits, `qargs = [0..N)`) holds only in the degenerate case `N = 1`. -/
theorem c3_skip_minimise_unchanged (n : Nat) (h : n ≠ 0) :
    ∃ ts, svtsSkip n = Except.ok ts ∧ minimiseRun ts = ts ∧
      ts.cfg.edges = [(ts.lin, ts.lout, ([idOp 2], [0]))] ∧
      ts.cfg.nodes = [0, 1] ∧ ts.lin = 0 ∧ ts.lout = 1 ∧
      (n = 1 → [0] = List.range n) := by
  refine ⟨skipSVTS n, svtsSkip_ok n h, minimiseRun_skip n, rfl, rfl, rfl, rfl, ?_⟩
  intro hn
  subst hn
  rfl

/-- Witness for C3's amended theorem at `n = 3`. -/
theorem c3_skip_minimise_unchanged_witness :
    (3 ≠ 0) ∧ ∃ ts, svtsSkip 3 = Except.ok ts ∧ minimiseRun ts = ts ∧
      ts.cfg.edges = [(ts.lin, ts.lout, ([idOp 2], [0]))] ∧
      ts.cfg.nodes = [0, 1] ∧ ts.lin = 0 ∧ ts.lout = 1 ∧
      (3 = 1 → [0] = List.range 3) :=
  ⟨by decide, c3_skip_minimise_unchanged 3 (by decide)⟩

/-- C3 as stated is false for `N = 2`: the minimised pure-skip SVTS keeps
`qargs = [0]` on its only edge, not the full list `[0, 1]`, and its Kraus
matrix stays `2 × 2`, not `4 × 4`. -/
theorem c3_counterexample :
    ((svtsSkip 2).map fun ts =>
        (minimiseRun ts).cfg.edges.map fun e => (krausDim e.2.2.1, e.2.2.2))
      = Except.ok [(2, [0])] ∧
    ¬ ((2 : Nat), ([0] : List Nat)) = (2 ^ 2, List.range 2) := by
  exact ⟨rfl, by decide⟩


/-- `|0⟩⟨0|` and `|1⟩⟨1|` together satisfy the completeness condition. -/
theorem m0m1_complete :
    is_identity_matrix ((M0.adjoint.mul M0).add (M1.adjoint.mul M1)) := by
  show ∀ i < 2, ∀ j < 2, _
  intro i hi j hj
  interval_cases i <;> interval_cases j <;>
    · simp only [Op.add, Op.mul, Op.adjoint, M0, M1, idOp, withinTol, CC.normSq,
        Finset.sum_range_succ, Finset.sum_range_zero, CC.conj, CC.mul_def, CC.add_def,
        CC.zero_def, CC.one_def]
      norm_num [ATOL, RTOL]

/-- `|0⟩⟨0|` alone fails the completeness condition (entry `(1,1)` is `0`,
not within tolerance of `1`). -/
theorem m0_alone_incomplete : ¬ is_identity_matrix (M0.adjoint.mul M0) := by
  intro h
  have h2 := h 1 (by norm_num [Op.mul, Op.adjoint, M0]) 1 (by norm_num [Op.mul, Op.adjoint, M0])
  simp only [Op.mul, Op.adjoint, M0, idOp, withinTol, CC.normSq,
    Finset.sum_range_succ, Finset.sum_range_zero, CC.conj, CC.mul_def, CC.add_def,
    CC.zero_def, CC.one_def] at h2
  norm_num [ATOL, RTOL] at h2

/-- C6: `case` with the one-qubit projectors `|0⟩⟨0|, |1⟩⟨1|` succeeds,
while any family of same-dimension measurement operators whose adjoint
product sum is not identity within tolerance — in particular `|0⟩⟨0|`
alone — is rejected with the completeness `ValueError` before any SVTS is
built. -/
theorem c6_case_completeness_validation
    (ambient : Nat) (cases : List (Op × SVTS)) (qargs : List Nat)
    (hq1 : qargs.Nodup) (hq2 : ∀ q ∈ qargs, q < ambient)
    (hdims : (cases.map fun c => c.1.dim).dedup.length ≤ 1)
    (hbad : ¬ pyIsIdentity (pyOpSum (List.map (fun c => c.1.adjoint.mul c.1) cases))) :
    (∃ ts, svtsCase 1 [(M0, skipSVTS 1), (M1, skipSVTS 1)] [0] = Except.ok ts) ∧
    svtsCase ambient cases qargs
      = Except.error (.valueError "completeness condition is not satisfied") ∧
    svtsCase 1 [(M0, skipSVTS 1)] [0]
      = Except.error (.valueError "completeness condition is not satisfied") := by
  refine ⟨?_, ?_, ?_⟩
  · unfold svtsCase
    rw [if_neg (not_not_intro (by decide : ([0] : List Nat).Nodup)),
        if_neg (not_not_intro (by decide : ∀ q ∈ ([0] : List Nat), q < 1)),
        if_neg (by decide :
          ¬ (([(M0, skipSVTS 1), (M1, skipSVTS 1)].map fun c => c.1.dim).dedup.length > 1)),
        if_neg (not_not_intro (show pyIsIdentity (pyOpSum (List.map
          (fun c => c.1.adjoint.mul c.1) [(M0, skipSVTS 1), (M1, skipSVTS 1)]))
          from m0m1_complete))]
    exact ⟨_, rfl⟩
  · unfold svtsCase
    rw [if_neg (not_not_intro hq1), if_neg (not_not_intro hq2),
        if_neg (by omega : ¬ ((cases.map fun c => c.1.dim).dedup.length > 1)),
        if_pos hbad]
  · unfold svtsCase
    rw [if_neg (not_not_intro (by decide : ([0] : List Nat).Nodup)),
        if_neg (not_not_intro (by decide : ∀ q ∈ ([0] : List Nat), q < 1)),
        if_neg (by decide :
          ¬ (([(M0, skipSVTS 1)].map fun c => c.1.dim).dedup.length > 1)),
        if_pos (show ¬ pyIsIdentity (pyOpSum (List.map
          (fun c => c.1.adjoint.mul c.1) [(M0, skipSVTS 1)]))
          from m0_alone_incomplete)]

/-- Witness for C6 at the single-projector family `[|0⟩⟨0|]`. -/
theorem c6_case_completeness_validation_witness :
    (([0] : List Nat).Nodup ∧ (∀ q ∈ ([0] : List Nat), q < 1) ∧
      ([((M0 : Op), skipSVTS 1)].map fun c => c.1.dim).dedup.length ≤ 1) ∧
    ((∃ ts, svtsCase 1 [(M0, skipSVTS 1), (M1, skipSVTS 1)] [0] = Except.ok ts) ∧
      svtsCase 1 [(M0, skipSVTS 1)] [0]
        = Except.error (.valueError "completeness condition is not satisfied") ∧
      svtsCase 1 [(M0, skipSVTS 1)] [0]
        = Except.error (.valueError "completeness condition is not satisfied")) :=
  ⟨⟨by decide, by decide, by decide⟩,
    c6_case_completeness_validation 1 [(M0, skipSVTS 1)] [0]
      (by decide) (by decide) (by decide)
      (show ¬ pyIsIdentity (pyOpSum (List.map (fun c => c.1.adjoint.mul c.1)
        [((M0 : Op), skipSVTS 1)])) from m0_alone_incomplete)⟩

/-- Entrywise sum of a list of operators (all of dimension `d` in every
use), tagged with the result dimension. -/
def sumOpsWithDim (d : Nat) (l : List Op) : Op :=
  ⟨d, fun i j => (l.map fun m => m.entry i j).sum⟩

/-- The channel of a Kraus list: `ρ ↦ Σ_K K ρ K†`. -/
def applyChannel (l : List Op) (rho : Op) : Op :=
  sumOpsWithDim rho.dim (l.map fun K => (K.mul rho).mul K.adjoint)

/-- Summing a mapped flat-map is the iterated double sum. -/
theorem sum_map_flatMap {α β γ : Type} [AddCommMonoid γ]
    (l : List α) (f : α → List β) (g : β → γ) :
    ((l.flatMap f).map g).sum = (l.map fun x => ((f x).map g).sum).sum := by
  induction l with
  | nil => simp
  | cons x xs ih => simp [ih]

/-- The channel of an all-pairs product Kraus list is the double sum of the
per-pair channels, entry by entry. -/
theorem applyChannel_flatMap_entry (A B : List Op) (rho : Op) (i j : Nat) :
    (applyChannel (A.flatMap fun x => B.map fun y => x.mul y) rho).entry i j
      = (sumOpsWithDim rho.dim (A.map fun x =>
          sumOpsWithDim rho.dim (B.map fun y =>
            ((x.mul y).mul rho).mul (x.mul y).adjoint))).entry i j := by
  induction A with
  | nil => simp [applyChannel, sumOpsWithDim]
  | cons hd tl ih =>
    simp only [applyChannel, sumOpsWithDim, List.flatMap_cons, List.map_append,
      List.sum_append, List.map_cons, List.sum_cons, List.map_map] at ih ⊢
    rw [ih]
    rfl

/-- C2: `SuperOperator` sequential composition (`dot` / `@`) keeps the left
operand's `qargs`, its Kraus list is exactly the `r·s` products
`A_i · B_j` in row-major order (no pruning), and consequently the composed
channel sends `ρ` to `Σ_i Σ_j (A_i B_j) ρ (A_i B_j)†`. -/
theorem c2_superop_dot_all_products (a b : SuperOperator) (rho : Op) :
    (superMatmul a b).qargs = a.qargs ∧
    (superMatmul a b).kraus
      = a.kraus.flatMap (fun x => b.kraus.map fun y => x.mul y) ∧
    Op.eqUpTo (applyChannel (superMatmul a b).kraus rho)
      (sumOpsWithDim rho.dim (a.kraus.map fun A =>
        sumOpsWithDim rho.dim (b.kraus.map fun B =>
          ((A.mul B).mul rho).mul (A.mul B).adjoint))) := by
  refine ⟨rfl, rfl, rfl, ?_⟩
  intro i _ j _
  exact applyChannel_flatMap_entry a.kraus b.kraus rho i j

/-- An edge whose ordered node pair is unseen and unique in the list
survives `dedupeEdges`. -/
theorem mem_dedupeEdges (l : List Edge) (seen : List (Nat × Nat)) (e : Edge)
    (he : e ∈ l) (hs : (e.1, e.2.1) ∉ seen)
    (hu : ∀ e' ∈ l, (e'.1, e'.2.1) = (e.1, e.2.1) → e' = e) :
    e ∈ CFG.dedupeEdges l seen := by
  induction l generalizing seen with
  | nil => cases he
  | cons a rest ih =>
    rw [CFG.dedupeEdges]
    rcases List.mem_cons.1 he with rfl | hmem
    · rw [if_neg hs]
      exact List.mem_cons_self _ _
    · by_cases hseen : (a.1, a.2.1) ∈ seen
      · rw [if_pos hseen]
        exact ih seen hmem hs fun e' he' => hu e' (List.mem_cons_of_mem _ he')
      · rw [if_neg hseen]
        by_cases hkey : (a.1, a.2.1) = (e.1, e.2.1)
        · have : a = e := hu a (List.mem_cons_self _ _) hkey
          subst this
          exact List.mem_cons_self _ _
        · refine List.mem_cons_of_mem _ (ih ((a.1, a.2.1) :: seen) hmem ?_ ?_)
          · intro hmem2
            rcases List.mem_cons.1 hmem2 with h1 | h2
            · exact hkey h1.symm
            · exact hs h2
          · exact fun e' he' => hu e' (List.mem_cons_of_mem _ he')

/-- The rewired edge list built inside `SVTS.loop` before deduplication:
the false edge, the shifted body edges, and the true edge, passed through
the contraction of `{image(body.lout), lin}`. -/
def loopMapped (E : List Edge) (n blin blout : Nat) (t f : Op)
    (qargs : List Nat) : List Edge :=
  ((0, 1, (([f], qargs) : Payload)) ::
    (E.map (fun e => (2 + e.1, 2 + e.2.1, e.2.2))
      ++ [(0, 2 + blin, (([t], qargs) : Payload))])).filterMap fun e =>
    if e.1 ∈ [2 + blout, 0] ∧ e.2.1 ∈ [2 + blout, 0] then none
    else some ((if e.1 ∈ [2 + blout, 0] then 2 + n else e.1),
               (if e.2.1 ∈ [2 + blout, 0] then 2 + n else e.2.1), e.2.2)

/-- Every element of the rewired list is the false edge, the true edge, a
back-edge from a body exit edge, or a shifted interior body edge. -/
theorem loopMapped_shapes (E : List Edge) (n blin blout : Nat) (t f : Op)
    (qargs : List Nat)
    (hll : blin ≠ blout)
    (hnolout : ∀ e ∈ E, e.1 ≠ blout) :
    ∀ x ∈ loopMapped E n blin blout t f qargs,
      x = (2 + n, 1, (([f], qargs) : Payload)) ∨
      x = (2 + n, 2 + blin, (([t], qargs) : Payload)) ∨
      (∃ e ∈ E, e.2.1 = blout ∧ x = (2 + e.1, 2 + n, e.2.2)) ∨
      (∃ e ∈ E, e.2.1 ≠ blout ∧ x = (2 + e.1, 2 + e.2.1, e.2.2)) := by
  intro x hx
  unfold loopMapped at hx
  rw [List.mem_filterMap] at hx
  obtain ⟨a, ha, hfa⟩ := hx
  have h1 : (1 : Nat) ∉ [2 + blout, 0] := by
    simp only [List.mem_cons, List.mem_singleton, List.not_mem_nil, or_false]
    omega
  have h0 : (0 : Nat) ∈ [2 + blout, 0] := by simp
  rcases List.mem_cons.1 ha with rfl | ha2
  · left
    rw [if_neg (fun h => h1 h.2), if_pos h0, if_neg h1] at hfa
    exact (Option.some_injective _ hfa).symm
  rcases List.mem_append.1 ha2 with ha3 | ha4
  · obtain ⟨e, he, rfl⟩ := List.mem_map.1 ha3
    have hsrc : (2 + e.1) ∉ [2 + blout, 0] := by
      simp only [List.mem_cons, List.mem_singleton, List.not_mem_nil, or_false]
      have := hnolout e he
      omega
    by_cases htgt : (2 + e.2.1) ∈ [2 + blout, 0]
    · right; right; left
      refine ⟨e, he, ?_, ?_⟩
      · simp only [List.mem_cons, List.mem_singleton, List.not_mem_nil, or_false] at htgt
        omega
      · rw [if_neg (fun h => hsrc h.1), if_neg hsrc, if_pos htgt] at hfa
        exact (Option.some_injective _ hfa).symm
    · right; right; right
      refine ⟨e, he, ?_, ?_⟩
      · simp only [List.mem_cons, List.mem_singleton, List.not_mem_nil, or_false] at htgt
        omega
      · rw [if_neg (fun h => hsrc h.1), if_neg hsrc, if_neg htgt] at hfa
        exact (Option.some_injective _ hfa).symm
  · rw [List.mem_singleton] at ha4
    subst ha4
    right; left
    have htgt : (2 + blin) ∉ [2 + blout, 0] := by
      simp only [List.mem_cons, List.mem_singleton, List.not_mem_nil, or_false]
      omega
    rw [if_neg (fun h => htgt h.2), if_pos h0, if_neg htgt] at hfa
    exact (Option.some_injective _ hfa).symm

/-- The deduplicated edge list of the contracted loop graph. -/
def loopContract (E : List Edge) (n blin blout : Nat) (t f : Op)
    (qargs : List Nat) : List Edge :=
  CFG.dedupeEdges (loopMapped E n blin blout t f qargs) []

/-- Explicit form of a successful `SVTS.loop` construction. -/
theorem svtsLoop_ok_form (ambient : Nat) (t f : Op) (body : SVTS)
    (qargs : List Nat) (hamb : ambient ≠ 0)
    (hq1 : qargs.Nodup) (hq2 : ∀ q ∈ qargs, q < ambient)
    (hdim : t.dim = f.dim) (hcmp : is_identity_matrix (t.add f)) :
    svtsLoop ambient t f body qargs = Except.ok
      ⟨ambient,
        ⟨2 + body.cfg.nextId + 1,
         ([0, 1] ++ body.cfg.nodes.map (fun i => 2 + i)).filter
            (fun x => decide (x ∉ [2 + body.lout, 0])) ++ [2 + body.cfg.nextId],
         loopContract body.cfg.edges body.cfg.nextId body.lin body.lout t f qargs⟩,
        2 + body.cfg.nextId, 1⟩ := by
  unfold svtsLoop
  rw [if_neg (not_not_intro hq1), if_neg (not_not_intro hq2),
      if_neg (not_not_intro hdim), if_neg (not_not_intro hcmp)]
  unfold svtsNew
  rw [if_neg hamb]
  rfl

theorem false_edge_mem_loopMapped (E : List Edge) (n blin blout : Nat)
    (t f : Op) (qargs : List Nat) :
    (2 + n, 1, (([f], qargs) : Payload)) ∈ loopMapped E n blin blout t f qargs := by
  unfold loopMapped
  rw [List.mem_filterMap]
  refine ⟨(0, 1, ([f], qargs)), List.mem_cons_self _ _, ?_⟩
  have h1 : (1 : Nat) ∉ [2 + blout, 0] := by
    simp only [List.mem_cons, List.mem_singleton, List.not_mem_nil, or_false]
    omega
  have h0 : (0 : Nat) ∈ [2 + blout, 0] := by simp
  rw [if_neg (fun h => h1 h.2), if_pos h0, if_neg h1]

theorem true_edge_mem_loopMapped (E : List Edge) (n blin blout : Nat)
    (t f : Op) (qargs : List Nat) (hll : blin ≠ blout) :
    (2 + n, 2 + blin, (([t], qargs) : Payload))
      ∈ loopMapped E n blin blout t f qargs := by
  unfold loopMapped
  rw [List.mem_filterMap]
  refine ⟨(0, 2 + blin, ([t], qargs)),
    List.mem_cons_of_mem _ (List.mem_append_right _ (List.mem_singleton.2 rfl)), ?_⟩
  have htgt : (2 + blin) ∉ [2 + blout, 0] := by
    simp only [List.mem_cons, List.mem_singleton, List.not_mem_nil, or_false]
    omega
  have h0 : (0 : Nat) ∈ [2 + blout, 0] := by simp
  rw [if_neg (fun h => htgt h.2), if_pos h0, if_neg htgt]

theorem back_edge_mem_loopMapped (E : List Edge) (n blin blout : Nat)
    (t f : Op) (qargs : List Nat) (e : Edge) (he : e ∈ E)
    (hsrc0 : e.1 ≠ blout) (hexit : e.2.1 = blout) :
    (2 + e.1, 2 + n, e.2.2) ∈ loopMapped E n blin blout t f qargs := by
  unfold loopMapped
  rw [List.mem_filterMap]
  refine ⟨(2 + e.1, 2 + e.2.1, e.2.2),
    List.mem_cons_of_mem _ (List.mem_append_left _ (List.mem_map_of_mem _ he)), ?_⟩
  have hsrc : (2 + e.1) ∉ [2 + blout, 0] := by
    simp only [List.mem_cons, List.mem_singleton, List.not_mem_nil, or_false]
    omega
  have htgt : (2 + e.2.1) ∈ [2 + blout, 0] := by
    simp only [List.mem_cons, List.mem_singleton, List.not_mem_nil, or_false]
    omega
  rw [if_neg (fun h => hsrc h.1), if_neg hsrc, if_pos htgt]

/-- C5: a well-formed `loop(T, F, body, qargs)` construction succeeds, the
fresh `lin` (the node contracted from `{image(body.lout), old lin}`) has an
edge to `lout` carrying the single-Kraus `F` on `qargs`, an edge to the
image of `body.lin` carrying the single-Kraus `T` on `qargs`, and every
exit edge of the body becomes a back-edge into the new `lin`. -/
theorem c5_loop_structure
    (ambient : Nat) (t f : Op) (body : SVTS) (qargs : List Nat)
    (hamb : ambient ≠ 0)
    (hq1 : qargs.Nodup) (hq2 : ∀ q ∈ qargs, q < ambient)
    (hdim : t.dim = f.dim) (hcmp : is_identity_matrix (t.add f))
    (hll : body.lin ≠ body.lout) (hlinb : body.lin < body.cfg.nextId)
    (hbound : ∀ e ∈ body.cfg.edges, e.1 < body.cfg.nextId ∧ e.2.1 < body.cfg.nextId)
    (hnolout : ∀ e ∈ body.cfg.edges, e.1 ≠ body.lout)
    (hpair : body.cfg.edges.Pairwise fun e e' => (e.1, e.2.1) ≠ (e'.1, e'.2.1)) :
    ∃ ts, svtsLoop ambient t f body qargs = Except.ok ts ∧
      ts.lin = 2 + body.cfg.nextId ∧
      ts.lout = 1 ∧
      (ts.lin, ts.lout, (([f], qargs) : Payload)) ∈ ts.cfg.edges ∧
      (ts.lin, 2 + body.lin, (([t], qargs) : Payload)) ∈ ts.cfg.edges ∧
      ∀ e ∈ body.cfg.edges, e.2.1 = body.lout →
        (2 + e.1, ts.lin, e.2.2) ∈ ts.cfg.edges := by
  have hsymm : Symmetric (fun (e e' : Edge) => (e.1, e.2.1) ≠ (e'.1, e'.2.1)) := by
    intro a b h heq
    exact h heq.symm
  have hpf : ∀ a ∈ body.cfg.edges, ∀ b ∈ body.cfg.edges,
      (a.1, a.2.1) = (b.1, b.2.1) → a = b := by
    intro a ha b hb hk
    by_contra hne
    exact (List.Pairwise.forall hsymm hpair ha hb hne) hk
  refine ⟨_, svtsLoop_ok_form ambient t f body qargs hamb hq1 hq2 hdim hcmp,
    rfl, rfl, ?_, ?_, ?_⟩
  · show (2 + body.cfg.nextId, 1, (([f], qargs) : Payload))
      ∈ loopContract body.cfg.edges body.cfg.nextId body.lin body.lout t f qargs
    refine mem_dedupeEdges _ _ _
      (false_edge_mem_loopMapped _ _ _ _ _ _ _) (List.not_mem_nil _) ?_
    intro x hx hk
    rcases loopMapped_shapes _ _ _ _ _ _ _ hll hnolout x hx with
      rfl | rfl | ⟨e, he, hexit, rfl⟩ | ⟨e, he, hnex, rfl⟩
    · rfl
    · simp only [Prod.mk.injEq] at hk
      omega
    · simp only [Prod.mk.injEq] at hk
      omega
    · simp only [Prod.mk.injEq] at hk
      have := hbound e he
      omega
  · show (2 + body.cfg.nextId, 2 + body.lin, (([t], qargs) : Payload))
      ∈ loopContract body.cfg.edges body.cfg.nextId body.lin body.lout t f qargs
    refine mem_dedupeEdges _ _ _
      (true_edge_mem_loopMapped _ _ _ _ _ _ _ hll) (List.not_mem_nil _) ?_
    intro x hx hk
    rcases loopMapped_shapes _ _ _ _ _ _ _ hll hnolout x hx with
      rfl | rfl | ⟨e, he, hexit, rfl⟩ | ⟨e, he, hnex, rfl⟩
    · simp only [Prod.mk.injEq] at hk
      omega
    · rfl
    · simp only [Prod.mk.injEq] at hk
      have := hbound e he
      omega
    · simp only [Prod.mk.injEq] at hk
      have := hbound e he
      omega
  · intro e he hexit
    show (2 + e.1, 2 + body.cfg.nextId, e.2.2)
      ∈ loopContract body.cfg.edges body.cfg.nextId body.lin body.lout t f qargs
    refine mem_dedupeEdges _ _ _
      (back_edge_mem_loopMapped _ _ _ _ _ _ _ e he (hnolout e he) hexit)
      (List.not_mem_nil _) ?_
    intro x hx hk
    rcases loopMapped_shapes _ _ _ _ _ _ _ hll hnolout x hx with
      rfl | rfl | ⟨e', he', hexit', rfl⟩ | ⟨e', he', hnex', rfl⟩
    · simp only [Prod.mk.injEq] at hk
      have := hbound e he
      omega
    · simp only [Prod.mk.injEq] at hk
      omega
    · simp only [Prod.mk.injEq] at hk
      have hsame : e' = e := by
        apply hpf e' he' e he
        have : e'.1 = e.1 := by omega
        rw [Prod.mk.injEq, this, hexit', hexit]
        exact ⟨rfl, rfl⟩
      rw [hsame]
    · simp only [Prod.mk.injEq] at hk
      have := hbound e' he'
      omega

/-- `|0⟩⟨0| + |1⟩⟨1|` is the identity (the `T + F = I` validation of the
witness loop). -/
theorem m0_add_m1_identity : is_identity_matrix (M0.add M1) := by
  show ∀ i < 2, ∀ j < 2, _
  intro i hi j hj
  interval_cases i <;> interval_cases j <;>
    · simp only [Op.add, M0, M1, idOp, withinTol, CC.normSq, CC.add_def,
        CC.zero_def, CC.one_def]
      norm_num [ATOL, RTOL]

/-- Witness for C5: the loop `while M0 do skip` on one qubit. -/
theorem c5_loop_structure_witness :
    is_identity_matrix (M0.add M1) ∧
    (∃ ts, svtsLoop 1 M0 M1 (skipSVTS 1) [0] = Except.ok ts ∧
      ts.lin = 2 + (skipSVTS 1).cfg.nextId ∧
      ts.lout = 1 ∧
      (ts.lin, ts.lout, (([M1], [0]) : Payload)) ∈ ts.cfg.edges ∧
      (ts.lin, 2 + (skipSVTS 1).lin, (([M0], [0]) : Payload)) ∈ ts.cfg.edges ∧
      ∀ e ∈ (skipSVTS 1).cfg.edges, e.2.1 = (skipSVTS 1).lout →
        (2 + e.1, ts.lin, e.2.2) ∈ ts.cfg.edges) :=
  ⟨m0_add_m1_identity,
    c5_loop_structure 1 M0 M1 (skipSVTS 1) [0] (by decide) (by decide) (by decide)
      rfl m0_add_m1_identity (by decide) (by decide) (by decide) (by decide)
      (by decide)⟩

/-! ## `parser.py::_parse_while_loop` -/

/-- The comparison operators accepted in a while-loop guard. -/
inductive CmpOp where
  | eq | ne | lt | le | gt | ge
deriving DecidableEq, Repr

/-- The opposite comparison, used to express the false-operator column of
the guard-reduction table. -/
def cmpNeg : CmpOp → CmpOp
  | .eq => .ne
  | .ne => .eq
  | .lt => .ge
  | .le => .gt
  | .gt => .le
  | .ge => .lt

/-- `meas = [outer(Statevector.from_int(i, dims)) for i in range(2 ** k)]`:
the per-basis-index projectors `|i⟩⟨i|`. -/
def measList (k : Nat) : List Op :=
  (List.range (2 ^ k)).map fun i => outer (2 ^ k) (stateFromInt i) (stateFromInt i)

/-- `expand(op, qsize)` with the default `qargs=None` on a single operator
(`expand` receives the `|i⟩⟨i|` projectors here); wraps `expandKraus` on
the singleton Kraus list. -/
def expandOpDefault (op : Op) (qsize : Nat) : Except PyErr Op :=
  match expandKraus [op] qsize [] with
  | .ok l => .ok (l.headD op)
  | .error e => .error e

/-- The `match cond.op.name` arm of `_parse_while_loop`: the true/false
guard operators as Python values (`none` is the integer `0` produced by
`sum([])`). -/
def guardOps (opn : CmpOp) (meas : List Op) (cval : Nat) : Option Op × Option Op :=
  match opn with
  | .eq => (some (meas.getD cval (idOp 1)), pyOpSum (meas.take cval ++ meas.drop (cval + 1)))
  | .ne => (pyOpSum (meas.take cval ++ meas.drop (cval + 1)), some (meas.getD cval (idOp 1)))
  | .lt => (pyOpSum (meas.take cval), pyOpSum (meas.drop cval))
  | .le => (pyOpSum (meas.take (cval + 1)), pyOpSum (meas.drop (cval + 1)))
  | .gt => (pyOpSum (meas.drop (cval + 1)), pyOpSum (meas.take (cval + 1)))
  | .ge => (pyOpSum (meas.drop cval), pyOpSum (meas.take cval))

/-- `_parse_while_loop` for the guard `c OP v` where `qargs` are the qubit
indices of `cregs[c]` and `body` the lowered loop body: build the
projectors, expand them (a no-op for the contiguous default `qargs`), apply
the guard table, then call `SVTS.loop`.  If either guard is the integer `0`
(an empty Python `sum`), the loop constructor's `.dim` access raises
`AttributeError`. -/
def parseWhileLoop (ambient : Nat) (opn : CmpOp) (cval : Nat)
    (qargs : List Nat) (body : SVTS) : Except PyErr SVTS :=
  let k := qargs.length
  let meas := (measList k).map fun m => (expandOpDefault m k).toOption.getD m
  let g := guardOps opn meas cval
  match g.1, g.2 with
  | some tOp, some fOp => svtsLoop ambient tOp fOp body qargs
  | _, _ => .error .attributeError

/-- `Σ_{i ∈ s} M_i` over the basis projectors `M_i = |i⟩⟨i|` on `k` qubits
— the spec's guard-table entries, for comparison with the code's slices. -/
def specMSum (k : Nat) (s : List Nat) : Op :=
  ⟨2 ^ k, fun a b =>
    (s.map fun i => (outer (2 ^ k) (stateFromInt i) (stateFromInt i)).entry a b).sum⟩

/-- The spec's true-operator column, per operator: `Σ M_i` over the basis
indices `i ∈ [0, 2^k)` satisfying `i OP v`. -/
def specGuardT (opn : CmpOp) (k v : Nat) : Op :=
  match opn with
  | .eq => specMSum k ((List.range (2 ^ k)).filter fun i => decide (i = v))
  | .ne => specMSum k ((List.range (2 ^ k)).filter fun i => decide (i ≠ v))
  | .lt => specMSum k ((List.range (2 ^ k)).filter fun i => decide (i < v))
  | .le => specMSum k ((List.range (2 ^ k)).filter fun i => decide (i ≤ v))
  | .gt => specMSum k ((List.range (2 ^ k)).filter fun i => decide (v < i))
  | .ge => specMSum k ((List.range (2 ^ k)).filter fun i => decide (v ≤ i))

/-- The guard combinations for which a slice in `_parse_while_loop` is the
empty list, so that `sum([])` yields the integer `0`. -/
def emptyBoundary (opn : CmpOp) (k v : Nat) : Prop :=
  match opn with
  | .eq => False
  | .ne => False
  | .lt => v = 0
  | .le => v = 2 ^ k - 1
  | .gt => v = 2 ^ k - 1
  | .ge => v = 0

instance (opn : CmpOp) (k v : Nat) : Decidable (emptyBoundary opn k v) := by
  unfold emptyBoundary
  rcases opn <;> infer_instance

theorem foldl_min_zero (l : List Nat) : l.foldl Nat.min 0 = 0 := by
  induction l with
  | nil => rfl
  | cons a t ih => simpa [Nat.zero_min, Nat.min_def] using ih

theorem foldl_max_range (k : Nat) (hk : 1 ≤ k) :
    (List.range k).foldl Nat.max 0 = k - 1 := by
  induction k with
  | zero => omega
  | succ m ih =>
    rw [List.range_succ, List.foldl_append]
    rcases Nat.eq_or_lt_of_le hk with h1 | h1
    · have : m = 0 := by omega
      subst this
      rfl
    · have hm : 1 ≤ m := by omega
      rw [ih hm]
      simp only [List.foldl_cons, List.foldl_nil, Nat.max_def]
      split <;> omega

theorem getLastD_range (k : Nat) (hk : 1 ≤ k) :
    (List.range k).getLast?.getD 0 = k - 1 := by
  rcases k with _ | m
  · omega
  · rw [List.range_succ, List.getLast?_concat]
    rfl

theorem contiguousRange_range (k : Nat) (hk : 1 ≤ k) :
    contiguousRange (List.range k) = List.range k := by
  have hhead : (List.range k).headD 0 = 0 := by
    rcases k with _ | m
    · omega
    · rw [List.range_succ_eq_map]
      rfl
  unfold contiguousRange
  rw [hhead, foldl_min_zero, foldl_max_range k hk, List.range_eq_range']
  congr 1
  omega

theorem log2_two_pow' (n : Nat) : Nat.log2 (2 ^ n) = n := by
  rw [Nat.log2_eq_log_two]
  exact Nat.log_pow (by norm_num) n

/-- `expand` with the default contiguous `qargs` is the identity on an
operator of matching dimension. -/
theorem expandOpDefault_id (op : Op) (k : Nat) (hk : 1 ≤ k) (hd : op.dim = 2 ^ k) :
    expandOpDefault op k = Except.ok op := by
  unfold expandOpDefault expandKraus
  have hdim : krausDim [op] = 2 ^ k := hd
  have hqargs : (if ([] : List Nat).isEmpty = true
      then List.range (Nat.log2 (krausDim [op])) else []) = List.range k := by
    rw [hdim, log2_two_pow']
    rfl
  rw [hqargs]
  rw [if_neg (not_not_intro (List.nodup_range k)),
      if_neg (not_not_intro (fun q hq => List.mem_range.1 hq)),
      if_neg (show ¬ krausDim [op] ≠ 2 ^ (List.range k).length by
        rw [List.length_range, hdim]
        exact not_not_intro rfl),
      if_pos (contiguousRange_range k hk).symm]
  unfold expandNoPerm
  have hh : (List.range k).headD 0 = 0 := by
    rcases k with _ | m
    · omega
    · rw [List.range_succ_eq_map]
      rfl
  rw [hh, getLastD_range k hk]
  have hiter : k - (k - 1) - 1 = 0 := by omega
  rw [hiter]
  rfl

/-- After the per-element `expand`, the projector list is unchanged. -/
theorem measAfterExpand (k : Nat) (hk : 1 ≤ k) :
    ((measList k).map fun m => (expandOpDefault m k).toOption.getD m) = measList k := by
  have h : ∀ m ∈ measList k, (expandOpDefault m k).toOption.getD m = m := by
    intro m hm
    unfold measList at hm
    obtain ⟨i, _, rfl⟩ := List.mem_map.1 hm
    rw [expandOpDefault_id _ k hk rfl]
    rfl
  calc ((measList k).map fun m => (expandOpDefault m k).toOption.getD m)
      = (measList k).map id := List.map_congr_left h
    _ = measList k := List.map_id _

/-- Entries of the basis projector `|i⟩⟨i|`. -/
theorem proj_entry (k i a b : Nat) :
    (outer (2 ^ k) (stateFromInt i) (stateFromInt i)).entry a b
      = if a = i ∧ b = i then 1 else 0 := by
  show stateFromInt i a * stateFromInt i b = _
  unfold stateFromInt
  by_cases ha : a = i <;> by_cases hb : b = i <;>
    simp [ha, hb, CC.mul_one', CC.one_mul', CC.mul_zero', CC.zero_mul']

theorem foldl_add_dim (h : Op) (t : List Op) : (t.foldl Op.add h).dim = h.dim := by
  induction t generalizing h with
  | nil => rfl
  | cons x xs ih => rw [List.foldl_cons, ih]; rfl

theorem foldl_add_entry (h : Op) (t : List Op) (a b : Nat) :
    (t.foldl Op.add h).entry a b = h.entry a b + (t.map fun m => m.entry a b).sum := by
  induction t generalizing h with
  | nil => simp [CC.add_zero']
  | cons x xs ih =>
    rw [List.foldl_cons, ih, List.map_cons, List.sum_cons]
    show (h.entry a b + x.entry a b) + _ = _
    rw [CC.add_assoc']

theorem map_entry_map (l : List Nat) (f : Nat → Op) (a b : Nat) :
    List.map (fun m => m.entry a b) (List.map f l) = l.map fun i => (f i).entry a b := by
  rw [List.map_map]
  rfl

/-- The Python sum of a nonempty mapped projector list, as an entrywise sum. -/
theorem pyOpSum_proj_eq (k : Nat) (l : List Nat) (hne : l ≠ []) :
    ∃ M, pyOpSum (l.map fun i => outer (2 ^ k) (stateFromInt i) (stateFromInt i))
        = some M ∧
      M.dim = 2 ^ k ∧
      ∀ a b, M.entry a b
        = ((l.map fun i =>
            (outer (2 ^ k) (stateFromInt i) (stateFromInt i)).entry a b).sum) := by
  rcases l with _ | ⟨x, xs⟩
  · exact absurd rfl hne
  refine ⟨_, rfl, ?_, ?_⟩
  · rw [foldl_add_dim]
    rfl
  · intro a b
    rw [foldl_add_entry, map_entry_map, List.map_cons, List.sum_cons]

/-- The entrywise value of a sum of distinct basis projectors. -/
theorem sum_proj_entries (k : Nat) (l : List Nat) (hnd : l.Nodup) (a b : Nat) :
    ((l.map fun i => (outer (2 ^ k) (stateFromInt i) (stateFromInt i)).entry a b).sum)
      = if a = b ∧ a ∈ l then 1 else 0 := by
  induction l with
  | nil => simp
  | cons i xs ih =>
    rw [List.map_cons, List.sum_cons, proj_entry, ih (List.Nodup.of_cons hnd)]
    by_cases hai : a = i ∧ b = i
    · obtain ⟨ha', hb'⟩ := hai
      have hab : a = b := by rw [ha', hb']
      have hnot : a ∉ xs := by
        rw [ha']
        exact (List.nodup_cons.1 hnd).1
      rw [if_pos ⟨ha', hb'⟩, if_neg (fun hc => hnot hc.2),
        if_pos ⟨hab, by rw [ha']; exact List.mem_cons_self _ _⟩, CC.add_zero']
    · rw [if_neg hai, CC.zero_add']
      by_cases hab : a = b
      · subst hab
        by_cases hmem : a ∈ xs
        · rw [if_pos ⟨rfl, hmem⟩, if_pos ⟨rfl, List.mem_cons_of_mem _ hmem⟩]
        · rw [if_neg (fun hc => hmem hc.2), if_neg]
          intro hc
          rcases List.mem_cons.1 hc.2 with rfl | hxs
          · exact hai ⟨rfl, rfl⟩
          · exact hmem hxs
      · rw [if_neg (fun hc => hab hc.1), if_neg (fun hc => hab hc.1)]

/-- Entries of the spec-side sum `Σ_{i ∈ s} M_i`. -/
theorem specMSum_entry (k : Nat) (s : List Nat) (hnd : s.Nodup) (a b : Nat) :
    (specMSum k s).entry a b = if a = b ∧ a ∈ s then 1 else 0 :=
  sum_proj_entries k s hnd a b

/-- The Python sum of a nonempty slice of basis projectors: its dimension,
entries, and agreement with the spec-side `Σ` over the matching filter. -/
theorem pyOpSum_slice_spec (k : Nat) (sl : List Nat) (p : Nat → Prop)
    [DecidablePred p] (hne : sl ≠ []) (hnd : sl.Nodup)
    (hmem : ∀ x, x ∈ sl ↔ x < 2 ^ k ∧ p x) :
    ∃ M, pyOpSum (sl.map fun i => outer (2 ^ k) (stateFromInt i) (stateFromInt i))
        = some M ∧
      M.dim = 2 ^ k ∧
      (∀ a b, M.entry a b = if a = b ∧ a ∈ sl then 1 else 0) ∧
      Op.eqUpTo M (specMSum k ((List.range (2 ^ k)).filter fun i => decide (p i))) := by
  obtain ⟨M, hM, hdim, hent⟩ := pyOpSum_proj_eq k sl hne
  have hent' : ∀ a b, M.entry a b = if a = b ∧ a ∈ sl then 1 else 0 := by
    intro a b
    rw [hent, sum_proj_entries k sl hnd]
  have hfnd : ((List.range (2 ^ k)).filter fun i => decide (p i)).Nodup :=
    (List.nodup_range _).filter _
  refine ⟨M, hM, hdim, hent', ⟨hdim, ?_⟩⟩
  intro a _ b _
  rw [hent', specMSum_entry k _ hfnd]
  have hmm : (a ∈ sl) ↔ (a ∈ (List.range (2 ^ k)).filter fun i => decide (p i)) := by
    rw [hmem a, List.mem_filter, List.mem_range]
    simp
  by_cases hc : a = b ∧ a ∈ sl
  · rw [if_pos hc, if_pos ⟨hc.1, hmm.1 hc.2⟩]
  · rw [if_neg hc, if_neg]
    intro hc2
    exact hc ⟨hc2.1, hmm.2 hc2.2⟩

theorem drop_range'_eq (s n m : Nat) :
    (List.range' s n).drop m = List.range' (s + m) (n - m) := by
  induction n generalizing s m with
  | zero => simp
  | succ k ih =>
    cases m with
    | zero => simp
    | succ m' =>
      rw [List.range'_succ, List.drop_succ_cons, ih]
      congr 1 <;> omega

theorem measList_take (k c : Nat) (hc : c ≤ 2 ^ k) :
    (measList k).take c
      = (List.range c).map fun i => outer (2 ^ k) (stateFromInt i) (stateFromInt i) := by
  unfold measList
  rw [← List.map_take, List.take_range, Nat.min_eq_left hc]

theorem measList_drop (k c : Nat) :
    (measList k).drop c
      = (List.range' c (2 ^ k - c)).map fun i =>
          outer (2 ^ k) (stateFromInt i) (stateFromInt i) := by
  unfold measList
  rw [← List.map_drop, List.range_eq_range', drop_range'_eq, Nat.zero_add]

theorem measList_getD (k v : Nat) (hv : v < 2 ^ k) :
    (measList k).getD v (idOp 1)
      = outer (2 ^ k) (stateFromInt v) (stateFromInt v) := by
  unfold measList
  rw [List.getD_eq_getElem?_getD, List.getElem?_map, List.getElem?_range hv]
  rfl

theorem withinTol_of_eq (x y : CC) (bound : ℚ) (h : x = y) : withinTol x y bound := by
  subst h
  unfold withinTol CC.normSq
  simp only [sub_self]
  calc (0 : ℚ) * 0 + 0 * 0 = 0 := by norm_num
    _ ≤ bound * bound := mul_self_nonneg bound

/-- A complementary pair of projector sums adds up to the identity. -/
theorem guard_pair_identity (k : Nat) (T F : Op) (slT slF : List Nat)
    (hdT : T.dim = 2 ^ k)
    (hT : ∀ a b, T.entry a b = if a = b ∧ a ∈ slT then 1 else 0)
    (hF : ∀ a b, F.entry a b = if a = b ∧ a ∈ slF then 1 else 0)
    (hpart : ∀ x, x < 2 ^ k → ((x ∈ slT ∧ x ∉ slF) ∨ (x ∉ slT ∧ x ∈ slF))) :
    is_identity_matrix (T.add F) := by
  intro i hi j hj
  have hi2 : i < 2 ^ k := by
    rw [← hdT]
    exact hi
  have hj2 : j < 2 ^ k := by
    rw [← hdT]
    exact hj
  have hentry : (T.add F).entry i j = T.entry i j + F.entry i j := rfl
  apply withinTol_of_eq
  rw [hentry, hT, hF]
  by_cases hij : i = j
  · subst hij
    have hid : (idOp (T.add F).dim).entry i i = 1 := by
      show (if i = i then (1 : CC) else 0) = 1
      rw [if_pos rfl]
    rw [hid]
    rcases hpart i hi2 with ⟨h1, h2⟩ | ⟨h1, h2⟩
    · rw [if_pos ⟨rfl, h1⟩, if_neg (fun hc => h2 hc.2), CC.add_zero']
    · rw [if_neg (fun hc => h1 hc.2), if_pos ⟨rfl, h2⟩, CC.zero_add']
  · have hid : (idOp (T.add F).dim).entry i j = 0 := by
      show (if i = j then (1 : CC) else 0) = 0
      rw [if_neg hij]
    rw [hid, if_neg (fun hc => hij hc.1), if_neg (fun hc => hij hc.1), CC.add_zero']

theorem proj_entry_mem (k v a b : Nat) :
    (outer (2 ^ k) (stateFromInt v) (stateFromInt v)).entry a b
      = if a = b ∧ a ∈ [v] then 1 else 0 := by
  rw [proj_entry]
  by_cases h : a = v ∧ b = v
  · rw [if_pos h, if_pos ⟨by rw [h.1, h.2], by rw [h.1]; exact List.mem_singleton_self v⟩]
  · rw [if_neg h, if_neg]
    intro hc
    rcases hc with ⟨hab, hm⟩
    rw [List.mem_singleton] at hm
    exact h ⟨hm, by rw [← hab]; exact hm⟩

theorem proj_eqUpTo_spec (k v : Nat) (hv : v < 2 ^ k) :
    Op.eqUpTo (outer (2 ^ k) (stateFromInt v) (stateFromInt v))
      (specMSum k ((List.range (2 ^ k)).filter fun i => decide (i = v))) := by
  refine ⟨rfl, ?_⟩
  intro a _ b _
  rw [proj_entry_mem, specMSum_entry k _ ((List.nodup_range _).filter _)]
  have hmm : a ∈ [v] ↔ a ∈ (List.range (2 ^ k)).filter fun i => decide (i = v) := by
    rw [List.mem_singleton, List.mem_filter, List.mem_range]
    constructor
    · intro h
      subst h
      exact ⟨hv, by simp⟩
    · intro h
      simpa using h.2
  by_cases hc : a = b ∧ a ∈ [v]
  · rw [if_pos hc, if_pos ⟨hc.1, hmm.1 hc.2⟩]
  · rw [if_neg hc, if_neg (fun hc2 => hc ⟨hc2.1, hmm.2 hc2.2⟩)]

/-- For every guard operator and literal outside the empty-slice
boundaries, the code's true/false operators exist, have the right
dimension, agree with the spec's guard-reduction table, and sum to the
identity. -/
theorem guardOps_some_spec (k v : Nat) (hk : 1 ≤ k) (hv : v < 2 ^ k) (opn : CmpOp)
    (hnb : ¬ emptyBoundary opn k v) :
    ∃ tOp fOp, guardOps opn (measList k) v = (some tOp, some fOp) ∧
      tOp.dim = 2 ^ k ∧ fOp.dim = 2 ^ k ∧
      Op.eqUpTo tOp (specGuardT opn k v) ∧
      Op.eqUpTo fOp (specGuardT (cmpNeg opn) k v) ∧
      is_identity_matrix (tOp.add fOp) := by
  have h2 : 2 ≤ 2 ^ k := by
    calc 2 = 2 ^ 1 := by norm_num
      _ ≤ 2 ^ k := Nat.pow_le_pow_right (by norm_num) hk
  rcases opn with _ | _ | _ | _ | _ | _
  · -- eq
    have hmemF : ∀ x, x ∈ List.range v ++ List.range' (v + 1) (2 ^ k - (v + 1))
        ↔ x < 2 ^ k ∧ x ≠ v := by
      intro x
      rw [List.mem_append, List.mem_range, List.mem_range'_1]
      omega
    have hndF : (List.range v ++ List.range' (v + 1) (2 ^ k - (v + 1))).Nodup := by
      refine (List.nodup_range v).append (List.nodup_range' _ _) ?_
      intro a ha hb
      rw [List.mem_range] at ha
      rw [List.mem_range'_1] at hb
      omega
    have hneF : List.range v ++ List.range' (v + 1) (2 ^ k - (v + 1)) ≠ [] := by
      intro h
      rcases List.append_eq_nil.1 h with ⟨h1, h2'⟩
      rw [List.range_eq_nil] at h1
      rw [List.range'_eq_nil] at h2'
      omega
    obtain ⟨MF, hMF, hdF, hentF, hspecF⟩ :=
      pyOpSum_slice_spec k (List.range v ++ List.range' (v + 1) (2 ^ k - (v + 1)))
        (fun x => x ≠ v) hneF hndF hmemF
    refine ⟨_, MF, ?_, rfl, hdF, proj_eqUpTo_spec k v hv, hspecF, ?_⟩
    · show (some ((measList k).getD v (idOp 1)),
        pyOpSum ((measList k).take v ++ (measList k).drop (v + 1))) = _
      rw [measList_getD k v hv, measList_take k v (by omega), measList_drop k (v + 1),
        ← List.map_append, hMF]
    · refine guard_pair_identity k _ MF [v] _ rfl
        (fun a b => proj_entry_mem k v a b) hentF ?_
      intro x hx
      rw [List.mem_singleton, hmemF x]
      omega
  · -- ne
    have hmemT : ∀ x, x ∈ List.range v ++ List.range' (v + 1) (2 ^ k - (v + 1))
        ↔ x < 2 ^ k ∧ x ≠ v := by
      intro x
      rw [List.mem_append, List.mem_range, List.mem_range'_1]
      omega
    have hndT : (List.range v ++ List.range' (v + 1) (2 ^ k - (v + 1))).Nodup := by
      refine (List.nodup_range v).append (List.nodup_range' _ _) ?_
      intro a ha hb
      rw [List.mem_range] at ha
      rw [List.mem_range'_1] at hb
      omega
    have hneT : List.range v ++ List.range' (v + 1) (2 ^ k - (v + 1)) ≠ [] := by
      intro h
      rcases List.append_eq_nil.1 h with ⟨h1, h2'⟩
      rw [List.range_eq_nil] at h1
      rw [List.range'_eq_nil] at h2'
      omega
    obtain ⟨MT, hMT, hdT, hentT, hspecT⟩ :=
      pyOpSum_slice_spec k (List.range v ++ List.range' (v + 1) (2 ^ k - (v + 1)))
        (fun x => x ≠ v) hneT hndT hmemT
    refine ⟨MT, _, ?_, hdT, rfl, hspecT, proj_eqUpTo_spec k v hv, ?_⟩
    · show (pyOpSum ((measList k).take v ++ (measList k).drop (v + 1)),
        some ((measList k).getD v (idOp 1))) = _
      rw [measList_getD k v hv, measList_take k v (by omega), measList_drop k (v + 1),
        ← List.map_append, hMT]
    · refine guard_pair_identity k MT _ _ [v] hdT
        hentT (fun a b => proj_entry_mem k v a b) ?_
      intro x hx
      rw [List.mem_singleton, hmemT x]
      omega
  · -- lt
    have hv0 : v ≠ 0 := hnb
    have hmemT : ∀ x, x ∈ List.range v ↔ x < 2 ^ k ∧ x < v := by
      intro x
      rw [List.mem_range]
      omega
    have hmemF : ∀ x, x ∈ List.range' v (2 ^ k - v) ↔ x < 2 ^ k ∧ v ≤ x := by
      intro x
      rw [List.mem_range'_1]
      omega
    obtain ⟨MT, hMT, hdT, hentT, hspecT⟩ :=
      pyOpSum_slice_spec k (List.range v) (fun x => x < v)
        (by rw [Ne, List.range_eq_nil]; omega) (List.nodup_range v) hmemT
    obtain ⟨MF, hMF, hdF, hentF, hspecF⟩ :=
      pyOpSum_slice_spec k (List.range' v (2 ^ k - v)) (fun x => v ≤ x)
        (by rw [Ne, List.range'_eq_nil]; omega) (List.nodup_range' _ _) hmemF
    refine ⟨MT, MF, ?_, hdT, hdF, hspecT, hspecF, ?_⟩
    · show (pyOpSum ((measList k).take v), pyOpSum ((measList k).drop v)) = _
      rw [measList_take k v (by omega), measList_drop k v, hMT, hMF]
    · refine guard_pair_identity k MT MF _ _ hdT hentT hentF ?_
      intro x hx
      rw [hmemT x, hmemF x]
      omega
  · -- le
    have hvb : v ≠ 2 ^ k - 1 := hnb
    have hmemT : ∀ x, x ∈ List.range (v + 1) ↔ x < 2 ^ k ∧ x ≤ v := by
      intro x
      rw [List.mem_range]
      omega
    have hmemF : ∀ x, x ∈ List.range' (v + 1) (2 ^ k - (v + 1))
        ↔ x < 2 ^ k ∧ v < x := by
      intro x
      rw [List.mem_range'_1]
      omega
    obtain ⟨MT, hMT, hdT, hentT, hspecT⟩ :=
      pyOpSum_slice_spec k (List.range (v + 1)) (fun x => x ≤ v)
        (by rw [Ne, List.range_eq_nil]; omega) (List.nodup_range _) hmemT
    obtain ⟨MF, hMF, hdF, hentF, hspecF⟩ :=
      pyOpSum_slice_spec k (List.range' (v + 1) (2 ^ k - (v + 1))) (fun x => v < x)
        (by rw [Ne, List.range'_eq_nil]; omega) (List.nodup_range' _ _) hmemF
    refine ⟨MT, MF, ?_, hdT, hdF, hspecT, hspecF, ?_⟩
    · show (pyOpSum ((measList k).take (v + 1)), pyOpSum ((measList k).drop (v + 1))) = _
      rw [measList_take k (v + 1) (by omega), measList_drop k (v + 1), hMT, hMF]
    · refine guard_pair_identity k MT MF _ _ hdT hentT hentF ?_
      intro x hx
      rw [hmemT x, hmemF x]
      omega
  · -- gt
    have hvb : v ≠ 2 ^ k - 1 := hnb
    have hmemT : ∀ x, x ∈ List.range' (v + 1) (2 ^ k - (v + 1))
        ↔ x < 2 ^ k ∧ v < x := by
      intro x
      rw [List.mem_range'_1]
      omega
    have hmemF : ∀ x, x ∈ List.range (v + 1) ↔ x < 2 ^ k ∧ x ≤ v := by
      intro x
      rw [List.mem_range]
      omega
    obtain ⟨MT, hMT, hdT, hentT, hspecT⟩ :=
      pyOpSum_slice_spec k (List.range' (v + 1) (2 ^ k - (v + 1))) (fun x => v < x)
        (by rw [Ne, List.range'_eq_nil]; omega) (List.nodup_range' _ _) hmemT
    obtain ⟨MF, hMF, hdF, hentF, hspecF⟩ :=
      pyOpSum_slice_spec k (List.range (v + 1)) (fun x => x ≤ v)
        (by rw [Ne, List.range_eq_nil]; omega) (List.nodup_range _) hmemF
    refine ⟨MT, MF, ?_, hdT, hdF, hspecT, hspecF, ?_⟩
    · show (pyOpSum ((measList k).drop (v + 1)), pyOpSum ((measList k).take (v + 1))) = _
      rw [measList_take k (v + 1) (by omega), measList_drop k (v + 1), hMT, hMF]
    · refine guard_pair_identity k MT MF _ _ hdT hentT hentF ?_
      intro x hx
      rw [hmemT x, hmemF x]
      omega
  · -- ge
    have hv0 : v ≠ 0 := hnb
    have hmemT : ∀ x, x ∈ List.range' v (2 ^ k - v) ↔ x < 2 ^ k ∧ v ≤ x := by
      intro x
      rw [List.mem_range'_1]
      omega
    have hmemF : ∀ x, x ∈ List.range v ↔ x < 2 ^ k ∧ x < v := by
      intro x
      rw [List.mem_range]
      omega
    obtain ⟨MT, hMT, hdT, hentT, hspecT⟩ :=
      pyOpSum_slice_spec k (List.range' v (2 ^ k - v)) (fun x => v ≤ x)
        (by rw [Ne, List.range'_eq_nil]; omega) (List.nodup_range' _ _) hmemT
    obtain ⟨MF, hMF, hdF, hentF, hspecF⟩ :=
      pyOpSum_slice_spec k (List.range v) (fun x => x < v)
        (by rw [Ne, List.range_eq_nil]; omega) (List.nodup_range v) hmemF
    refine ⟨MT, MF, ?_, hdT, hdF, hspecT, hspecF, ?_⟩
    · show (pyOpSum ((measList k).drop v), pyOpSum ((measList k).take v)) = _
      rw [measList_take k v (by omega), measList_drop k v, hMT, hMF]
    · refine guard_pair_identity k MT MF _ _ hdT hentT hentF ?_
      intro x hx
      rw [hmemT x, hmemF x]
      omega

theorem measList_length (k : Nat) : (measList k).length = 2 ^ k := by
  unfold measList
  rw [List.length_map, List.length_range]

/-- C4 (amended): for a `k`-bit register (`k = |qargs| ≥ 1`) and literal
`v < 2^k`, `_parse_while_loop` constructs the true/false operators from the
basis projectors exactly as the guard-reduction table specifies, and the
lowering succeeds — *except* in the four boundary cases where one table
entry is an empty sum (`<` with `v = 0`, `>=` with `v = 0`, `<=` with
`v = 2^k - 1`, `>` with `v = 2^k - 1`): there Python's `sum([])` is the
integer `0` and the loop constructor's `.dim` access raises
`AttributeError`. -/
theorem c4_while_guard_table
    (ambient : Nat) (body : SVTS) (qargs : List Nat) (v : Nat) (opn : CmpOp)
    (hamb : ambient ≠ 0) (hk : 1 ≤ qargs.length)
    (hq1 : qargs.Nodup) (hq2 : ∀ q ∈ qargs, q < ambient)
    (hv : v < 2 ^ qargs.length) :
    (emptyBoundary opn qargs.length v →
      parseWhileLoop ambient opn v qargs body = Except.error PyErr.attributeError) ∧
    (¬ emptyBoundary opn qargs.length v →
      ∃ tOp fOp, guardOps opn (measList qargs.length) v = (some tOp, some fOp) ∧
        Op.eqUpTo tOp (specGuardT opn qargs.length v) ∧
        Op.eqUpTo fOp (specGuardT (cmpNeg opn) qargs.length v) ∧
        ∃ ts, parseWhileLoop ambient opn v qargs body = Except.ok ts) := by
  have h2 : 2 ≤ 2 ^ qargs.length := by
    calc 2 = 2 ^ 1 := by norm_num
      _ ≤ 2 ^ qargs.length := Nat.pow_le_pow_right (by norm_num) hk
  have hred : parseWhileLoop ambient opn v qargs body
      = (match (guardOps opn (measList qargs.length) v).1,
          (guardOps opn (measList qargs.length) v).2 with
        | some tOp, some fOp => svtsLoop ambient tOp fOp body qargs
        | _, _ => Except.error PyErr.attributeError) := by
    simp only [parseWhileLoop]
    rw [measAfterExpand qargs.length hk]
  constructor
  · intro hb
    rcases opn with _ | _ | _ | _ | _ | _
    · exact hb.elim
    · exact hb.elim
    · -- lt, v = 0
      have hb' : v = 0 := hb
      subst hb'
      rw [hred]
      have hg1 : (guardOps CmpOp.lt (measList qargs.length) 0).1 = none := rfl
      rw [hg1]
    · -- le, v = 2^k - 1
      have hb' : v = 2 ^ qargs.length - 1 := hb
      have hle : (measList qargs.length).length ≤ v + 1 := by
        rw [measList_length]
        omega
      have hg2 : (guardOps CmpOp.le (measList qargs.length) v).2 = none := by
        show pyOpSum ((measList qargs.length).drop (v + 1)) = none
        rw [List.drop_eq_nil_of_le hle]
        rfl
      obtain ⟨MT, hMT, _, _⟩ := pyOpSum_proj_eq qargs.length (List.range (v + 1))
        (by rw [Ne, List.range_eq_nil]; omega)
      have hg1 : (guardOps CmpOp.le (measList qargs.length) v).1 = some MT := by
        show pyOpSum ((measList qargs.length).take (v + 1)) = some MT
        rw [measList_take qargs.length (v + 1) (by omega), hMT]
      rw [hred, hg1, hg2]
    · -- gt, v = 2^k - 1
      have hb' : v = 2 ^ qargs.length - 1 := hb
      have hle : (measList qargs.length).length ≤ v + 1 := by
        rw [measList_length]
        omega
      have hg1 : (guardOps CmpOp.gt (measList qargs.length) v).1 = none := by
        show pyOpSum ((measList qargs.length).drop (v + 1)) = none
        rw [List.drop_eq_nil_of_le hle]
        rfl
      rw [hred, hg1]
    · -- ge, v = 0
      have hb' : v = 0 := hb
      subst hb'
      obtain ⟨MT, hMT, _, _⟩ := pyOpSum_proj_eq qargs.length
        (List.range' 0 (2 ^ qargs.length - 0))
        (by rw [Ne, List.range'_eq_nil]; omega)
      have hg1 : (guardOps CmpOp.ge (measList qargs.length) 0).1 = some MT := by
        show pyOpSum ((measList qargs.length).drop 0) = some MT
        rw [measList_drop qargs.length 0, hMT]
      have hg2 : (guardOps CmpOp.ge (measList qargs.length) 0).2 = none := rfl
      rw [hred, hg1, hg2]
  · intro hnb
    obtain ⟨T, F, hg, hdT, hdF, hsT, hsF, hid⟩ :=
      guardOps_some_spec qargs.length v hk hv opn hnb
    refine ⟨T, F, hg, hsT, hsF, ?_⟩
    rw [hred, hg]
    exact ⟨_, svtsLoop_ok_form ambient T F body qargs hamb hq1 hq2
      (hdT.trans hdF.symm) hid⟩

/-- Witness for C4 at the one-bit guard `c == 0` (a non-boundary case). -/
theorem c4_while_guard_table_witness :
    ((1 : Nat) ≠ 0 ∧ 1 ≤ ([0] : List Nat).length ∧ ([0] : List Nat).Nodup ∧
      (∀ q ∈ ([0] : List Nat), q < 1) ∧ 0 < 2 ^ ([0] : List Nat).length) ∧
    ((emptyBoundary CmpOp.eq ([0] : List Nat).length 0 →
        parseWhileLoop 1 CmpOp.eq 0 [0] (skipSVTS 1)
          = Except.error PyErr.attributeError) ∧
      (¬ emptyBoundary CmpOp.eq ([0] : List Nat).length 0 →
        ∃ tOp fOp, guardOps CmpOp.eq (measList ([0] : List Nat).length) 0
            = (some tOp, some fOp) ∧
          Op.eqUpTo tOp (specGuardT CmpOp.eq ([0] : List Nat).length 0) ∧
          Op.eqUpTo fOp (specGuardT (cmpNeg CmpOp.eq) ([0] : List Nat).length 0) ∧
          ∃ ts, parseWhileLoop 1 CmpOp.eq 0 [0] (skipSVTS 1) = Except.ok ts)) :=
  ⟨⟨by decide, by decide, by decide, by decide, by decide⟩,
    c4_while_guard_table 1 (skipSVTS 1) [0] 0 CmpOp.eq (by decide) (by decide)
      (by decide) (by decide) (by decide)⟩

/-- C4 as stated is false: for the guard `c < 0` on a one-bit register the
lowering does not succeed — the true-operator slice is the empty Python
`sum` and the loop constructor raises `AttributeError`. -/
theorem c4_counterexample :
    parseWhileLoop 1 CmpOp.lt 0 [0] (skipSVTS 1)
      = Except.error PyErr.attributeError ∧
    ¬ ∃ ts, parseWhileLoop 1 CmpOp.lt 0 [0] (skipSVTS 1) = Except.ok ts := by
  refine ⟨rfl, ?_⟩
  rintro ⟨ts, hts⟩
  rw [show parseWhileLoop 1 CmpOp.lt 0 [0] (skipSVTS 1)
    = Except.error PyErr.attributeError from rfl] at hts
  exact Except.noConfusion hts
